import Mathlib

/-!
Verification of the voice-daily-note publishing pipeline.

The Python sources are embedded shallowly over `Str := List Char`.
Text-level operations (Python `str.strip`, `str.split`, and the
line-anchored regular expressions used by the pipeline) are modelled
as executable functions on character lists; every definition carries a
comment naming the source function and lines it embeds.
-/

namespace VDN

/-- Characters are the unit of text; a `Str` models a Python `str`. -/
abbrev Str := List Char

/-- The characters stripped by Python `str.strip()` (ASCII whitespace,
which is all that occurs in this repository's data). -/
def isWsChar (c : Char) : Bool :=
  c = ' ' || c = '\t' || c = '\n' || c = '\r' || c = '\x0b' || c = '\x0c'

/-- Python `s.lstrip()`. -/
def lstrip (s : Str) : Str := s.dropWhile isWsChar

/-- Python `s.rstrip()`. -/
def rstrip (s : Str) : Str := (s.reverse.dropWhile isWsChar).reverse

/-- Python `s.strip()`. -/
def strip (s : Str) : Str := lstrip (rstrip s)

/-- Python `s.strip(chars)` for an explicit character set. -/
def stripChars (cs : List Char) (s : Str) : Str :=
  ((s.dropWhile (· ∈ cs)).reverse.dropWhile (· ∈ cs)).reverse

/-- Python `s.split("\n")`: the list of lines of `s` (an empty string
has one empty line, matching Python). -/
def splitLines : Str → List Str
  | [] => [[]]
  | c :: rest =>
    if c = '\n' then [] :: splitLines rest
    else
      match splitLines rest with
      | [] => [[c]]
      | l :: ls => (c :: l) :: ls

/-- Decimal digits of a natural number, as text. -/
def natStr (n : Nat) : Str := (Nat.repr n).data

/-- `"\n".join` over a list of pieces. -/
def joinNl (ps : List Str) : Str := List.intercalate ['\n'] ps

-- ── Data model ──────────────────────────────────────────────────────

/-- `ShareEntry` (share_pipeline.py lines 33-38, share_to_social.py
lines 32-37, share_to_linkedin.py lines 30-35). -/
structure ShareEntry where
  title : Str
  body : Str
  source_file : Str
  source_date : Str
 deriving DecidableEq

/-- `RefinedEntry` (share_pipeline.py lines 41-45). -/
structure RefinedEntry where
  title : Str
  content : Str
  source_date : Str
 deriving DecidableEq

/-- `SocialPost` (share_to_social.py lines 40-47). -/
structure SocialPost where
  title : Str
  brief : Str
  twitter_cn : Str
  linkedin_en : Str
  youtube_shorts : Str
  source_date : Str
 deriving DecidableEq

-- ── Separator-line splitting ────────────────────────────────────────

/-- Does `line` consist of `marker` followed only by whitespace?  The
MULTILINE patterns `^===\s*$` and `^---\s*$` match exactly at such
lines (a match may additionally swallow following whitespace-only text
into the separator, but the surrounding `.strip()` calls erase that
difference, so the line-level model is observationally faithful). -/
def isSepLine (marker : Str) (line : Str) : Bool :=
  marker.isPrefixOf line && (line.drop marker.length).all isWsChar

/-- The pieces produced by `re.split` with a `^marker\s*$` MULTILINE
pattern, modelled at line granularity (see `isSepLine`). -/
def splitAtSepLines (marker : Str) : List Str → List (List Str)
  | [] => [[]]
  | l :: ls =>
    if isSepLine marker l then [] :: splitAtSepLines marker ls
    else
      match splitAtSepLines marker ls with
      | [] => [[l]]
      | p :: ps => (l :: p) :: ps

/-- Python `[b.strip() for b in re.split(r"^===\s*$", text,
flags=re.MULTILINE) if b.strip()]` (share_pipeline.py line 271). -/
def blocksOf (text : Str) : List Str :=
  ((splitAtSepLines ("===".data) (splitLines text)).map
      (fun p => strip (joinNl p))).filter (fun b => b ≠ [])

/-- First line of a string: the text before the first newline. -/
def firstLine (s : Str) : Str := s.takeWhile (· ≠ '\n')

/-- Python `re.match(r"## (.+)", block)` followed by
`.group(1).strip()`: `some` exactly when the block starts with `## `
and has at least one more character on its first line; the title is
the remainder of that line, stripped (share_pipeline.py lines
275-278). -/
def refinedTitle (block : Str) : Option Str :=
  if ("## ".data).isPrefixOf block && decide (3 < (firstLine block).length) then
    some (strip ((firstLine block).drop 3))
  else none

/-- Python `block[title_match.end():].strip()`
(share_pipeline.py line 279). -/
def refinedContent (block : Str) : Str :=
  strip (block.drop (firstLine block).length)

-- ── ISO week label (share_pipeline.py lines 257-261) ────────────────

def isLeapYear (y : Nat) : Bool := y % 4 = 0 && (y % 100 ≠ 0 || y % 400 = 0)

def daysInMonth (y m : Nat) : Nat :=
  if m = 2 then (if isLeapYear y then 29 else 28)
  else if m = 4 || m = 6 || m = 9 || m = 11 then 30
  else 31

def dayOfYear (y m d : Nat) : Nat :=
  d + ((List.range (m - 1)).map (fun k => daysInMonth y (k + 1))).sum

/-- Days from 0001-01-01 (day 1, a Monday in the proleptic Gregorian
calendar) to the given date. -/
def dayNumber (y m d : Nat) : Nat :=
  365 * (y - 1) + (y - 1) / 4 - (y - 1) / 100 + (y - 1) / 400 + dayOfYear y m d

/-- ISO weekday: 1 = Monday .. 7 = Sunday. -/
def isoWeekday (y m d : Nat) : Nat := (dayNumber y m d - 1) % 7 + 1

def isoWeeksInYear (y : Nat) : Nat :=
  if isoWeekday y 1 1 = 4 || isoWeekday y 12 31 = 4 then 53 else 52

/-- The ISO (week, week-year) pair of a date, as `datetime.isocalendar`
computes it. -/
def isoWeekOf (y m d : Nat) : Nat × Nat :=
  let w := (dayOfYear y m d + 10 - isoWeekday y m d) / 7
  if w = 0 then (isoWeeksInYear (y - 1), y - 1)
  else if w = 53 && isoWeeksInYear y = 52 then (1, y + 1)
  else (w, y)

def isDigitCh (c : Char) : Bool := '0' ≤ c && c ≤ '9'

def digitsToNat (s : Str) : Nat :=
  s.foldl (fun acc c => 10 * acc + (c.toNat - '0'.toNat)) 0

/-- Is `s` a well-formed `YYYY-MM-DD` calendar date?  This is the only
date shape `datetime.fromisoformat` receives in this pipeline. -/
def validIsoDate (s : Str) : Bool :=
  decide (s.length = 10) &&
  (s.take 4).all isDigitCh && s.getD 4 ' ' = '-' &&
  ((s.drop 5).take 2).all isDigitCh && s.getD 7 ' ' = '-' &&
  ((s.drop 8).take 2).all isDigitCh &&
  (let y := digitsToNat (s.take 4)
   let m := digitsToNat ((s.drop 5).take 2)
   let d := digitsToNat ((s.drop 8).take 2)
   decide (1 ≤ m) && decide (m ≤ 12) && decide (1 ≤ d) && decide (d ≤ daysInMonth y m))

/-- Python `_iso_week_label` (share_pipeline.py lines 257-261):
`datetime.fromisoformat(date_str).isocalendar()` rendered as
`Week N - YYYY`.  `fromisoformat` raises on malformed input; claims
about the merge step therefore restrict entry dates with
`validIsoDate`, and the junk value returned here for malformed text is
never relied upon. -/
def isoWeekLabel (date_str : Str) : Str :=
  if validIsoDate date_str then
    let y := digitsToNat (date_str.take 4)
    let m := digitsToNat ((date_str.drop 5).take 2)
    let d := digitsToNat ((date_str.drop 8).take 2)
    let wk := isoWeekOf y m d
    "Week ".data ++ natStr wk.1 ++ " - ".data ++ natStr wk.2
  else "INVALID DATE ".data ++ date_str

-- ── Result parser (share_pipeline.py lines 264-291) ─────────────────

/-- Lines 282-287 of share_pipeline.py: the `source_date` attached to
the record at block position `i` — the original entry's date when the
position is in range and that date is nonempty, else `today`. -/
def pickedDate (src : List ShareEntry) (today : Str) (i : Nat) : Str :=
  let sd0 := if i < src.length then (src.getD i ⟨[], [], [], []⟩).source_date else []
  if sd0 = [] then today else sd0

/-- The `for i, block in enumerate(blocks)` loop of
`_parse_refined_entries` (share_pipeline.py lines 274-289).  `today`
stands for `datetime.today().strftime("%Y-%m-%d")`. -/
def parseRefinedAux (src : List ShareEntry) (today : Str) : Nat → List Str → List RefinedEntry
  | _, [] => []
  | i, b :: bs =>
    match refinedTitle b with
    | none => parseRefinedAux src today (i + 1) bs
    | some t =>
      ⟨t, refinedContent b, pickedDate src today i⟩ :: parseRefinedAux src today (i + 1) bs

/-- Python `_parse_refined_entries` (share_pipeline.py lines 264-291),
with the `02_twitter.md` artifact text passed directly. -/
def parseRefinedEntries (text : Str) (src : List ShareEntry) (today : Str) :
    List RefinedEntry :=
  parseRefinedAux src today 0 (blocksOf text)

-- ── Idempotent merge (share_pipeline.py lines 294-343) ──────────────

/-- Python `re.findall(r"^## (.+)$", existing_content,
flags=re.MULTILINE)` (share_pipeline.py line 315): the text after
`## ` on every line that starts with `## ` plus at least one more
character. -/
def headingTitles (content : Str) : List Str :=
  (splitLines content).filterMap fun line =>
    if ("## ".data).isPrefixOf line && decide (3 < line.length) then some (line.drop 3)
    else none

/-- The separator between appended entries (share_pipeline.py
line 327). -/
def sepStr : Str := "\n\n===\n\n".data

/-- One appended entry (share_pipeline.py line 328). -/
def entryPart (e : RefinedEntry) : Str :=
  "## ".data ++ e.title ++ "\n\n".data ++ e.content

/-- Python `separator.join(parts)`: the pieces interleaved with
`sepStr`. -/
def joinWithSep : List Str → Str
  | [] => []
  | [p] => p
  | p :: q :: ps => p ++ sepStr ++ joinWithSep (q :: ps)

/-- `separator.join(parts)` over the appended entries
(share_pipeline.py line 329). -/
def appendTextOf (es : List RefinedEntry) : Str :=
  joinWithSep (es.map entryPart)

/-- The body of the per-bucket loop of `merge_to_shared_posts`
(share_pipeline.py lines 309-341): given the existing file content
(`[]` when the file does not exist) and the bucket's entries, returns
`some newContent` when the file is written, `none` when every entry is
skipped. -/
def mergeBucket (existing : Str) (entries : List RefinedEntry) : Option Str :=
  let existingTitles := headingTitles existing
  let newEntries := entries.filter fun e => decide (e.title ∉ existingTitles)
  if newEntries = [] then none
  else some
    ((if existing ≠ [] then rstrip existing ++ sepStr else []) ++
      appendTextOf newEntries ++ ['\n'])

/-- The weekly vault directory as a store keyed by week label
(the file `vault_posts_dir / (week_label + ".md")`); `none` models a
missing file. -/
abbrev VaultFs := Str → Option Str

def emptyFs : VaultFs := fun _ => none

def fsUpdate (fs : VaultFs) (k : Str) (v : Str) : VaultFs :=
  fun q => if q = k then some v else fs q

def entryLabel (e : RefinedEntry) : Str := isoWeekLabel e.source_date

/-- First-occurrence deduplication: the key order of the `defaultdict`
built at share_pipeline.py lines 302-305. -/
def firstDedup (seen : List Str) : List Str → List Str
  | [] => []
  | x :: xs => if x ∈ seen then firstDedup seen xs else x :: firstDedup (x :: seen) xs

/-- The per-bucket loop of `merge_to_shared_posts` (share_pipeline.py
lines 309-341) over the listed week labels; returns the final store
and the labels written (`written_paths`). -/
def runLabels (es : List RefinedEntry) (fs : VaultFs) : List Str → VaultFs × List Str
  | [] => (fs, [])
  | L :: Ls =>
    let group := es.filter fun e => decide (entryLabel e = L)
    match mergeBucket ((fs L).getD []) group with
    | none => runLabels es fs Ls
    | some c =>
      let r := runLabels es (fsUpdate fs L c) Ls
      (r.1, L :: r.2)

/-- Python `merge_to_shared_posts` (share_pipeline.py lines 294-343). -/
def mergeToSharedPosts (es : List RefinedEntry) (fs : VaultFs) : VaultFs × List Str :=
  runLabels es fs (firstDedup [] (es.map entryLabel))

-- ── Content vault (share_to_social.py lines 282-285, 335-370) ───────

def badFileChars : List Char := ['\\', '/', ':', '*', '?', '"', '<', '>', '|']

/-- Python `_safe_filename` (share_to_social.py lines 282-285):
`re.sub` of the forbidden-character class with `-`, then
`.strip(". ")`, falling back to `"untitled"`. -/
def safeFilename (title : Str) : Str :=
  let slug := title.map fun ch => if ch ∈ badFileChars then '-' else ch
  let s := stripChars ['.', ' '] slug
  if s = [] then "untitled".data else s

/-- The per-post file name (share_to_social.py line 345). -/
def vaultFileName (p : SocialPost) : Str :=
  p.source_date ++ ['-'] ++ safeFilename p.title ++ ".md".data

/-- `month_dir / filename` with `month_label = post.source_date[:7]`
(share_to_social.py lines 340-345). -/
def vaultPath (p : SocialPost) : Str :=
  p.source_date.take 7 ++ ['/'] ++ vaultFileName p

/-- The file body written for one post (share_to_social.py lines
351-366). -/
def renderPost (p : SocialPost) : Str :=
  joinNl (["## ".data ++ p.title, []] ++
    (if p.brief ≠ [] then [p.brief, []] else []) ++
    ["---twitter-cn---".data, p.twitter_cn, [],
     "---linkedin-en---".data, p.linkedin_en, [],
     "---youtube-shorts---".data, p.youtube_shorts, []])

/-- Python `save_to_content_vault` (share_to_social.py lines 335-370):
the content vault as a path-keyed store; returns the updated store and
`written_paths`. -/
def saveToContentVault (fs : VaultFs) : List SocialPost → VaultFs × List Str
  | [] => (fs, [])
  | p :: ps =>
    if (fs (vaultPath p)).isSome then saveToContentVault fs ps
    else
      let r := saveToContentVault (fsUpdate fs (vaultPath p) (renderPost p)) ps
      (r.1, vaultPath p :: r.2)

-- ── Tag detection (extractors) ──────────────────────────────────────

def tagLabel : Str := "**标签**".data

def colonChars : List Char := ['：', ':']

def shareTag : Str := "#Share".data

/-- Does `s` contain `pat` as a contiguous substring?  Models
`re.search` of a literal pattern. -/
def containsSub (pat : Str) : Str → Bool
  | [] => pat.isPrefixOf []
  | c :: rest => pat.isPrefixOf (c :: rest) || containsSub pat rest

/-- Does the regex `\*\*标签\*\*[：:].*#Share` match at the very start
of `s`?  The literal `**标签**`, then one of the two colons, then
`#Share` further down the same line (`.` does not match a newline, so
the `#Share` occurrence is searched within the text up to the next
newline). -/
def sameLineHit (s : Str) : Bool :=
  tagLabel.isPrefixOf s &&
    (match s.drop tagLabel.length with
     | [] => false
     | k :: tail => decide (k ∈ colonChars) && containsSub shareTag (tail.takeWhile (· ≠ '\n')))

/-- The regex `\*\*标签\*\*[：:].*#Share` searched over `s`
(share_pipeline.py line 87, share_to_social.py line 81): the search
tries every start position left to right. -/
def tagSearchSameLine : Str → Bool
  | [] => false
  | c :: rest => sameLineHit (c :: rest) || tagSearchSameLine rest

/-- Does the regex `\*\*标签\*\*[：:]\s*#Share` match at the very
start of `s`?  After the colon, `\s*` may cross newlines; since `#` is
not whitespace, backtracking succeeds exactly when `#Share` starts
right after the maximal whitespace run. -/
def afterWsHit (s : Str) : Bool :=
  tagLabel.isPrefixOf s &&
    (match s.drop tagLabel.length with
     | [] => false
     | k :: tail => decide (k ∈ colonChars) && shareTag.isPrefixOf (tail.dropWhile isWsChar))

/-- The regex `\*\*标签\*\*[：:]\s*#Share` searched over `s`
(share_to_linkedin.py line 77). -/
def tagSearchAfterWs : Str → Bool
  | [] => false
  | c :: rest => afterWsHit (c :: rest) || tagSearchAfterWs rest

/-- Segment body: Python splits the stripped segment at the first
`^---\s*$` line (`re.split`, `maxsplit=1`) and strips the remainder;
with no such line it joins `entry_text.split("\n")[2:]` and strips
(share_pipeline.py lines 96-103, share_to_linkedin.py lines 86-93). -/
def segmentBody (s : Str) : Str :=
  let ls := splitLines s
  match ls.findIdx? (fun l => isSepLine ("---".data) l) with
  | some j => strip (joinNl (ls.drop (j + 1)))
  | none => strip (joinNl (ls.drop 2))

/-- The per-segment body of the extraction loop of
`_parse_entries_from_file` in share_pipeline.py (lines 79-111) and
share_to_social.py (lines 77-102), both of which use the same-line
`#Share` regex.  Returns `some (title, body)` when the segment yields
an entry. -/
def segmentEntryPipe (entryText : Str) : Option (Str × Str) :=
  let s := strip entryText
  if ("## ".data).isPrefixOf s && tagSearchSameLine s && decide (3 < (firstLine s).length) then
    let title := strip ((firstLine s).drop 3)
    let body := segmentBody s
    if body = [] then none else some (title, body)
  else none

/-- The same loop body in share_to_linkedin.py (lines 69-101), which
uses the whitespace-then-`#Share` regex. -/
def segmentEntryLinkedin (entryText : Str) : Option (Str × Str) :=
  let s := strip entryText
  if ("## ".data).isPrefixOf s && tagSearchAfterWs s && decide (3 < (firstLine s).length) then
    let title := strip ((firstLine s).drop 3)
    let body := segmentBody s
    if body = [] then none else some (title, body)
  else none

-- ── Remote client retry loops ───────────────────────────────────────

/-- `MAX_RETRIES` (config.py line 36). -/
def MAX_RETRIES : Nat := 3

/-- `RETRY_BASE_DELAY` in seconds (config.py line 37). -/
def RETRY_BASE_DELAY : Nat := 2

/-- The transient status codes retried by every client
(share_pipeline.py line 173, refine.py line 130). -/
def transientCodes : List Nat := [429, 500, 502, 503, 529]

/-- One content block of a 200 response body. -/
structure ContentBlock where
  btype : Str
  text : Str
 deriving DecidableEq

/-- One `requests.post` interaction outcome as observed by the retry
loops. -/
inductive Resp where
  | ok (blocks : List ContentBlock) (stopReason : Option Str)
  | status (code : Nat)
  | timeout
  | reqError
 deriving DecidableEq

def isTransientResp : Resp → Bool
  | .ok _ _ => false
  | .status code => decide (code ∈ transientCodes)
  | .timeout => true
  | .reqError => false

/-- `"\n".join(text_blocks)` over blocks whose type is `"text"`
(share_pipeline.py lines 168-171, refine.py lines 123-126). -/
def joinTextBlocks (blocks : List ContentBlock) : Str :=
  joinNl ((blocks.filter fun b => decide (b.btype = "text".data)).map ContentBlock.text)

/-- `RETRY_BASE_DELAY * (2 ** attempt)` (share_pipeline.py line 174). -/
def retryDelay (attempt : Nat) : Nat := RETRY_BASE_DELAY * 2 ^ attempt

/-- The observable outcome of `_call_claude`: the returned text, the
arguments of the `time.sleep` calls in order, and the number of
`requests.post` calls issued. -/
structure CallOutcome where
  text : Str
  sleeps : List Nat
  attempts : Nat
 deriving DecidableEq

/-- The retry loop of `_call_claude` (share_pipeline.py lines 157-192)
from a given attempt index with the given remaining loop iterations;
`responses i` is what attempt `i`'s `requests.post` produces. -/
def callClaudeFrom (responses : Nat → Resp) : Nat → Nat → CallOutcome
  | _, 0 => ⟨[], [], 0⟩
  | attempt, fuel + 1 =>
    match responses attempt with
    | .ok blocks _ => ⟨joinTextBlocks blocks, [], 1⟩
    | .status code =>
      if code ∈ transientCodes then
        let r := callClaudeFrom responses (attempt + 1) fuel
        ⟨r.text, retryDelay attempt :: r.sleeps, r.attempts + 1⟩
      else ⟨[], [], 1⟩
    | .timeout =>
      let r := callClaudeFrom responses (attempt + 1) fuel
      ⟨r.text, retryDelay attempt :: r.sleeps, r.attempts + 1⟩
    | .reqError => ⟨[], [], 1⟩

/-- Python `_call_claude` (share_pipeline.py lines 140-192): the loop
runs `range(MAX_RETRIES)` and returns `""` when it falls through. -/
def callClaude (responses : Nat → Resp) : CallOutcome :=
  callClaudeFrom responses 0 MAX_RETRIES

/-- The retry loop of `_call_claude_api` (refine.py lines 112-150),
which additionally reports `data.get("stop_reason") == "max_tokens"`
for a 200 response. -/
def callClaudeApiFrom (responses : Nat → Resp) : Nat → Nat → Str × Bool
  | _, 0 => ([], false)
  | attempt, fuel + 1 =>
    match responses attempt with
    | .ok blocks stopReason =>
      (joinTextBlocks blocks, decide (stopReason = some ("max_tokens".data)))
    | .status code =>
      if code ∈ transientCodes then callClaudeApiFrom responses (attempt + 1) fuel
      else ([], false)
    | .timeout => callClaudeApiFrom responses (attempt + 1) fuel
    | .reqError => ([], false)

/-- Python `_call_claude_api` (refine.py lines 93-150). -/
def callClaudeApi (responses : Nat → Resp) : Str × Bool :=
  callClaudeApiFrom responses 0 MAX_RETRIES

-- ── refine.py driver (lines 75-82, 167-230) ─────────────────────────

/-- Python `_build_user_message` (refine.py lines 75-82). -/
def buildUserMessage (date : Str) (entries : List (Str × Str)) : Str :=
  joinNl (("# ".data ++ date ++ "\n".data) ::
    (entries.map fun te => ["## ".data ++ te.1 ++ "\n".data, strip te.2, []]).flatten)

/-- The front matter of `_write_output_md` (refine.py lines 167-173). -/
def frontMatterFor (date : Str) (entryCount : Nat) : Str :=
  "---\ndate: ".data ++ date ++ "\ntype: daily-note\nentries: ".data ++
    natStr entryCount ++ "\n---\n\n".data

/-- The counts returned by `refine_all` plus the files it writes, as
`(date, file content)` pairs in processing order. -/
structure RefineTotals where
  success : Nat
  skipped : Nat
  failed : Nat
  writes : List (Str × Str)
 deriving DecidableEq

/-- Python `refine_all` (refine.py lines 176-230) over its grouped
transcripts.  `exists0 date` models the `(OUTPUT_DIR / date).exists()`
check, `api m` models `_call_claude_api` on user message `m` (the token
estimate is a function of `m` alone).  The shrinkage check only prints
a warning and is omitted. -/
def refineAll (exists0 : Str → Bool) (force dryRun : Bool) (api : Str → Str × Bool) :
    List (Str × List (Str × Str)) → RefineTotals
  | [] => ⟨0, 0, 0, []⟩
  | (date, entries) :: rest =>
    let r := refineAll exists0 force dryRun api rest
    if exists0 date && !force then ⟨r.success, r.skipped + 1, r.failed, r.writes⟩
    else if dryRun then ⟨r.success, r.skipped + 1, r.failed, r.writes⟩
    else
      let res := api (buildUserMessage date entries)
      if res.1 = [] then ⟨r.success, r.skipped, r.failed + 1, r.writes⟩
      else
        let refined := if res.2 then res.1 ++ "\n\n[TRUNCATED]\n".data else res.1
        ⟨r.success + 1, r.skipped, r.failed,
          (date, frontMatterFor date entries.length ++ refined) :: r.writes⟩

/-- Python `refine_for_twitter` (share_pipeline.py lines 237-252):
`raise SystemExit(...)` is modelled as `Except.error` carrying the
message; success carries the text written to `02_twitter.md`. -/
def refineForTwitter (extractedExists : Bool) (extracted : Str) (api : Str → Str) :
    Except Str Str :=
  if !extractedExists then
    .error ("ERROR: 01_extracted.md not found. Run extract step first.".data)
  else
    let refined := api extracted
    if refined = [] then
      .error ("ERROR: Claude API returned empty response for refinement.".data)
    else .ok refined

-- ── Specification-side predicates used by the claims ────────────────

/-- Declarative reading of the regex `\*\*标签\*\*[：:].*#Share`: the
tag label, one of the two colons, then `#Share` later on the same
line. -/
def PipeTagSpec (s : Str) : Prop :=
  ∃ pre k mid post, k ∈ colonChars ∧ '\n' ∉ mid ∧
    s = pre ++ tagLabel ++ k :: (mid ++ shareTag ++ post)

/-- Declarative reading of the regex `\*\*标签\*\*[：:]\s*#Share`: the
tag label, one of the two colons, then `#Share` separated only by
whitespace. -/
def AfterWsTagSpec (s : Str) : Prop :=
  ∃ pre k ws post, k ∈ colonChars ∧ (∀ x ∈ ws, isWsChar x = true) ∧
    s = pre ++ tagLabel ++ k :: (ws ++ shareTag ++ post)

/-- A refined entry as tracked by the merge invariant: nonempty
newline-free title; nonempty content that carries no trailing
whitespace and no line starting with the `## ` heading marker; a
well-formed entry date (so `datetime.fromisoformat` cannot raise). -/
abbrev GoodEntry (e : RefinedEntry) : Prop :=
  e.title ≠ [] ∧ '\n' ∉ e.title ∧
  e.content ≠ [] ∧ rstrip e.content = e.content ∧
  (∀ line ∈ splitLines e.content, ("## ".data).isPrefixOf line = false) ∧
  validIsoDate e.source_date = true

/-- A well-formed merge run: well-formed entries with pairwise
distinct titles. -/
abbrev GoodRun (es : List RefinedEntry) : Prop :=
  (∀ e ∈ es, GoodEntry e) ∧ (es.map RefinedEntry.title).Nodup

/-- The invariant maintained for every weekly file: headings pairwise
distinct, and the content is nonempty text ending in exactly one final
newline after a non-whitespace character. -/
def GoodContent (c : Str) : Prop :=
  (headingTitles c).Nodup ∧
  ∃ A ch, c = A ++ ['\n'] ∧ A.getLast? = some ch ∧ isWsChar ch = false

/-- All stored files satisfy `GoodContent`. -/
def GoodFs (fs : VaultFs) : Prop := ∀ b c, fs b = some c → GoodContent c

/-- Weekly stores reachable from the empty store by well-formed merge
runs. -/
inductive ReachableVault : VaultFs → Prop
  | init : ReachableVault emptyFs
  | step (fs : VaultFs) (es : List RefinedEntry) :
      ReachableVault fs → GoodRun es → ReachableVault (mergeToSharedPosts es fs).1

-- ── Lemmas: text primitives ─────────────────────────────────────────

theorem splitLines_ne_nil (s : Str) : splitLines s ≠ [] := by
  induction s with
  | nil => simp [splitLines]
  | cons c rest ih =>
    simp only [splitLines]
    split
    · simp
    · cases h : splitLines rest with
      | nil => simp
      | cons l ls => simp

/-- Splitting at a newline splits the line lists. -/
theorem splitLines_append (a b : Str) :
    splitLines (a ++ '\n' :: b) = splitLines a ++ splitLines b := by
  induction a with
  | nil => simp [splitLines]
  | cons c rest ih =>
    by_cases hc : c = '\n'
    · subst hc
      simp [splitLines, ih]
    · cases h : splitLines rest with
      | nil => exact absurd h (splitLines_ne_nil rest)
      | cons l ls =>
        have ih' : splitLines (rest.append ('\n' :: b)) = l :: (ls ++ splitLines b) := by
          rw [List.append_eq, ih, h]; rfl
        simp only [List.cons_append, splitLines, if_neg hc, ih', h]

/-- A newline-free string is a single line. -/
theorem splitLines_eq_single (s : Str) (h : '\n' ∉ s) : splitLines s = [s] := by
  induction s with
  | nil => simp [splitLines]
  | cons c rest ih =>
    have hc : c ≠ '\n' := fun hx => h (hx ▸ List.mem_cons_self c rest)
    have hr : '\n' ∉ rest := fun hx => h (List.mem_cons_of_mem c hx)
    simp only [splitLines, if_neg hc, ih hr]

theorem length_dropWhile_le (p : Char → Bool) (l : Str) :
    (l.dropWhile p).length ≤ l.length := by
  induction l with
  | nil => simp
  | cons c rest ih =>
    rw [List.dropWhile_cons]
    split
    · exact Nat.le_succ_of_le ih
    · exact Nat.le_refl _

theorem dropWhile_append_of_forall {p : Char → Bool} {a : Str} (b : Str)
    (h : ∀ x ∈ a, p x = true) : (a ++ b).dropWhile p = b.dropWhile p := by
  induction a with
  | nil => simp
  | cons c rest ih =>
    have hc : p c = true := h c (List.mem_cons_self c rest)
    simp only [List.cons_append, List.dropWhile_cons, hc, if_true]
    exact ih (fun x hx => h x (List.mem_cons_of_mem c hx))

theorem dropWhile_cons_of_neg {p : Char → Bool} {c : Char} (rest : Str)
    (h : ¬ p c = true) : (c :: rest).dropWhile p = c :: rest := by
  simp [List.dropWhile_cons, h]

theorem takeWhile_append_of_forall {p : Char → Bool} {a : Str} (b : Str)
    (h : ∀ x ∈ a, p x = true) : (a ++ b).takeWhile p = a ++ b.takeWhile p := by
  induction a with
  | nil => simp
  | cons c rest ih =>
    have hc : p c = true := h c (List.mem_cons_self c rest)
    simp only [List.cons_append, List.takeWhile_cons, hc, if_true]
    simp [ih (fun x hx => h x (List.mem_cons_of_mem c hx))]

/-- `rstrip` drops a final newline when the text before it ends in a
non-whitespace character. -/
theorem rstrip_append_newline (A : Str) (ch : Char)
    (hl : A.getLast? = some ch) (hw : isWsChar ch = false) :
    rstrip (A ++ ['\n']) = A := by
  unfold rstrip
  rw [List.reverse_append]
  have hrev : A.reverse.head? = some ch := by
    rw [List.head?_reverse]; exact hl
  cases hA : A.reverse with
  | nil => rw [hA] at hrev; simp at hrev
  | cons x xs =>
    rw [hA] at hrev
    simp only [List.head?_cons, Option.some.injEq] at hrev
    subst hrev
    simp only [List.reverse_cons, List.reverse_nil, List.nil_append, List.singleton_append]
    rw [List.dropWhile_cons]
    simp only [isWsChar, decide_True, Bool.or_true, Bool.true_or, if_true]
    rw [dropWhile_cons_of_neg _ (by simp [hw])]
    rw [← hA, List.reverse_reverse]

/-- If `rstrip` fixes a nonempty string, its last character is not
whitespace. -/
theorem getLast_not_ws_of_rstrip_eq (s : Str) (hne : s ≠ [])
    (h : rstrip s = s) : ∃ ch, s.getLast? = some ch ∧ isWsChar ch = false := by
  cases hs : s.reverse with
  | nil =>
    exact absurd (by simpa using congrArg List.reverse hs) hne
  | cons x xs =>
    refine ⟨x, ?_, ?_⟩
    · rw [← List.head?_reverse, hs]; rfl
    · by_contra hx
      have hx' : isWsChar x = true := by
        cases hxx : isWsChar x
        · exact absurd hxx hx
        · rfl
      have : rstrip s = (xs.dropWhile isWsChar).reverse := by
        unfold rstrip
        rw [hs, List.dropWhile_cons, hx']
        simp
      rw [h] at this
      have hlen : s.length ≤ xs.length := by
        have := congrArg List.length this
        simp only [List.length_reverse] at this
        calc s.length = (xs.dropWhile isWsChar).length := this
          _ ≤ xs.length := length_dropWhile_le _ _
      have : s.length = xs.length + 1 := by
        have := congrArg List.length hs
        simpa using this
      omega

-- ── Lemmas: heading extraction and appended text ────────────────────

theorem isPrefixOf_append_self (a b : Str) : a.isPrefixOf (a ++ b) = true := by
  induction a with
  | nil => simp [List.isPrefixOf]
  | cons c rest ih => simp [List.isPrefixOf, ih]

theorem headingTitles_nil : headingTitles [] = [] := by decide

theorem headingTitles_append (a b : Str) :
    headingTitles (a ++ '\n' :: b) = headingTitles a ++ headingTitles b := by
  unfold headingTitles
  rw [splitLines_append, List.filterMap_append]

theorem headingTitles_cons_newline (b : Str) :
    headingTitles ('\n' :: b) = headingTitles b := by
  have h := headingTitles_append [] b
  simpa [headingTitles_nil] using h

/-- The heading list of a stored file `A ++ "\n"` is that of `A`. -/
theorem headingTitles_append_newline (A : Str) :
    headingTitles (A ++ ['\n']) = headingTitles A := by
  have h := headingTitles_append A []
  simpa [headingTitles_nil] using h

/-- Heading lists ignore the `===` entry separator. -/
theorem headingTitles_sep_append (a b : Str) :
    headingTitles (a ++ sepStr ++ b) = headingTitles a ++ headingTitles b := by
  have key : a ++ sepStr ++ b = a ++ '\n' :: ('\n' :: ("===".data ++ '\n' :: ('\n' :: b))) := by
    rw [List.append_assoc]
    rfl
  rw [key, headingTitles_append, headingTitles_cons_newline,
    headingTitles_append ("===".data), headingTitles_cons_newline,
    show headingTitles ("===".data) = [] from by decide]
  simp

theorem entryPart_splitLinesEq (e : RefinedEntry) (h : '\n' ∉ e.title) :
    splitLines (entryPart e) = ("## ".data ++ e.title) :: [] :: splitLines e.content := by
  have key : entryPart e = ("## ".data ++ e.title) ++ '\n' :: ('\n' :: e.content) := by
    simp only [entryPart, List.append_assoc]
    rfl
  rw [key, splitLines_append]
  have h2 : '\n' ∉ "## ".data ++ e.title := by
    intro hx
    rcases List.mem_append.mp hx with hx | hx
    · exact absurd hx (by decide)
    · exact h hx
  rw [splitLines_eq_single _ h2]
  simp [splitLines]

theorem headingTitles_entryPart (e : RefinedEntry) (h1 : '\n' ∉ e.title)
    (h2 : e.title ≠ []) :
    headingTitles (entryPart e) = e.title :: headingTitles e.content := by
  unfold headingTitles
  rw [entryPart_splitLinesEq e h1, List.filterMap_cons, List.filterMap_cons]
  have hp : ("## ".data).isPrefixOf ("## ".data ++ e.title) = true :=
    isPrefixOf_append_self _ _
  have hlen : 3 < ("## ".data ++ e.title).length := by
    rw [List.length_append]
    have hpos : 0 < e.title.length := List.length_pos.mpr h2
    have h3 : ("## ".data).length = 3 := by decide
    omega
  have hd : ("## ".data ++ e.title).drop 3 = e.title := List.drop_left' (by decide)
  simp [hp, hlen, hd, List.length_pos.mpr h2]

theorem headingTitles_entryPart_single (e : RefinedEntry) (h1 : '\n' ∉ e.title)
    (h2 : e.title ≠ [])
    (h3 : ∀ line ∈ splitLines e.content, ("## ".data).isPrefixOf line = false) :
    headingTitles (entryPart e) = [e.title] := by
  rw [headingTitles_entryPart e h1 h2]
  have hc : headingTitles e.content = [] := by
    unfold headingTitles
    rw [List.filterMap_eq_nil_iff]
    intro line hline
    simp [h3 line hline]
  rw [hc]

theorem headingTitles_joinWithSep (ps : List Str) :
    headingTitles (joinWithSep ps) = (ps.map headingTitles).flatten := by
  induction ps with
  | nil => simp [joinWithSep, headingTitles_nil]
  | cons p ps ih =>
    cases ps with
    | nil => simp [joinWithSep]
    | cons q rest =>
      rw [show joinWithSep (p :: q :: rest) = p ++ sepStr ++ joinWithSep (q :: rest) from rfl]
      rw [headingTitles_sep_append, ih]
      simp

theorem headingTitles_appendTextOf (es : List RefinedEntry)
    (h : ∀ e ∈ es, e.title ≠ [] ∧ '\n' ∉ e.title ∧
      (∀ line ∈ splitLines e.content, ("## ".data).isPrefixOf line = false)) :
    headingTitles (appendTextOf es) = es.map RefinedEntry.title := by
  unfold appendTextOf
  rw [headingTitles_joinWithSep]
  induction es with
  | nil => simp
  | cons e rest ih =>
    have he := h e (List.mem_cons_self e rest)
    rw [List.map_cons, List.map_cons, List.map_cons, List.flatten_cons,
      headingTitles_entryPart_single e he.2.1 he.1 he.2.2,
      ih (fun e' he' => h e' (List.mem_cons_of_mem e he'))]
    rfl

theorem title_mem_headingTitles_appendTextOf (es : List RefinedEntry) (e : RefinedEntry)
    (he : e ∈ es) (h1 : e.title ≠ []) (h2 : '\n' ∉ e.title) :
    e.title ∈ headingTitles (appendTextOf es) := by
  unfold appendTextOf
  rw [headingTitles_joinWithSep]
  apply List.mem_flatten.mpr
  refine ⟨headingTitles (entryPart e), ?_, ?_⟩
  · exact List.mem_map_of_mem headingTitles (List.mem_map_of_mem entryPart he)
  · rw [headingTitles_entryPart e h2 h1]
    exact List.mem_cons_self _ _

theorem getLast?_append_right (a b : Str) (h : b ≠ []) :
    (a ++ b).getLast? = b.getLast? := by
  rw [List.getLast?_append]
  cases hb : b.getLast? with
  | none => exact absurd (List.getLast?_eq_none_iff.mp hb) h
  | some x => rfl

theorem entryPart_getLast? (e : RefinedEntry) (h : e.content ≠ []) :
    (entryPart e).getLast? = e.content.getLast? := by
  unfold entryPart
  exact getLast?_append_right _ _ h

theorem joinWithSep_getLast? (ps : List Str)
    (h : ∀ p ∈ ps, ∃ ch, p.getLast? = some ch ∧ isWsChar ch = false) (hne : ps ≠ []) :
    ∃ ch, (joinWithSep ps).getLast? = some ch ∧ isWsChar ch = false := by
  induction ps with
  | nil => exact absurd rfl hne
  | cons p rest ih =>
    cases rest with
    | nil => simpa [joinWithSep] using h p (List.mem_cons_self p [])
    | cons q rs =>
      obtain ⟨ch, hch, hw⟩ := ih (fun x hx => h x (List.mem_cons_of_mem p hx)) (by simp)
      refine ⟨ch, ?_, hw⟩
      rw [show joinWithSep (p :: q :: rs) = p ++ sepStr ++ joinWithSep (q :: rs) from rfl]
      have hne2 : joinWithSep (q :: rs) ≠ [] := by
        intro hx
        rw [hx] at hch
        simp at hch
      rw [getLast?_append_right _ _ hne2, hch]

-- ── Lemmas: the merge step ──────────────────────────────────────────

theorem mergeBucket_eq_some (existing : Str) (entries : List RefinedEntry) (c : Str)
    (h : mergeBucket existing entries = some c) :
    (entries.filter fun e => decide (e.title ∉ headingTitles existing)) ≠ [] ∧
    c = (if existing ≠ [] then rstrip existing ++ sepStr else []) ++
      appendTextOf (entries.filter fun e => decide (e.title ∉ headingTitles existing)) ++
      ['\n'] := by
  simp only [mergeBucket] at h
  by_cases hn : (entries.filter fun e => decide (e.title ∉ headingTitles existing)) = []
  · rw [if_pos hn] at h
    exact absurd h (by simp)
  · rw [if_neg hn] at h
    exact ⟨hn, (Option.some.inj h).symm⟩

theorem mergeBucket_eq_none (existing : Str) (entries : List RefinedEntry)
    (h : mergeBucket existing entries = none) :
    ∀ e ∈ entries, e.title ∈ headingTitles existing := by
  simp only [mergeBucket] at h
  by_cases hn : (entries.filter fun e => decide (e.title ∉ headingTitles existing)) = []
  · intro e he
    have hx := List.filter_eq_nil_iff.mp hn e he
    simpa using hx
  · rw [if_neg hn] at h
    simp at h

theorem mergeBucket_goodContent (existing : Str) (entries : List RefinedEntry) (c : Str)
    (hE : ∀ e ∈ entries, GoodEntry e)
    (hN : (entries.map RefinedEntry.title).Nodup)
    (hEx : existing = [] ∨ GoodContent existing)
    (h : mergeBucket existing entries = some c) :
    GoodContent c ∧
    headingTitles c =
      headingTitles existing ++
        (entries.filter fun e =>
          decide (e.title ∉ headingTitles existing)).map RefinedEntry.title := by
  obtain ⟨hne, hc⟩ := mergeBucket_eq_some existing entries c h
  set newE := entries.filter fun e => decide (e.title ∉ headingTitles existing) with hdefNewE
  have hsubE : ∀ e ∈ newE, GoodEntry e := fun e he => hE e (List.mem_of_mem_filter he)
  have hHTapp : headingTitles (appendTextOf newE) = newE.map RefinedEntry.title := by
    apply headingTitles_appendTextOf
    intro e he
    obtain ⟨g1, g2, _, _, g5, _⟩ := hsubE e he
    exact ⟨g1, g2, g5⟩
  have happLast : ∃ ch, (appendTextOf newE).getLast? = some ch ∧ isWsChar ch = false := by
    apply joinWithSep_getLast?
    · intro p hp
      obtain ⟨e, he, rfl⟩ := List.mem_map.mp hp
      obtain ⟨_, _, g3, g4, _, _⟩ := hsubE e he
      obtain ⟨ch, hch, hw⟩ := getLast_not_ws_of_rstrip_eq e.content g3 g4
      refine ⟨ch, ?_, hw⟩
      rw [entryPart_getLast? e g3]
      exact hch
    · simpa using hne
  have happne : appendTextOf newE ≠ [] := by
    obtain ⟨ch, hch, _⟩ := happLast
    intro hx
    rw [hx] at hch
    simp at hch
  have hnodupNew : (newE.map RefinedEntry.title).Nodup :=
    ((List.filter_sublist entries).map RefinedEntry.title).nodup hN
  have hdisj : ∀ t ∈ headingTitles existing, t ∉ newE.map RefinedEntry.title := by
    intro t htex htnew
    obtain ⟨e, he, rfl⟩ := List.mem_map.mp htnew
    have hx := (List.mem_filter.mp he).2
    simp at hx
    exact hx htex
  rcases hEx with hnil | hgood
  · subst hnil
    have hcond : ¬ (([] : Str) ≠ []) := by simp
    rw [if_neg hcond] at hc
    simp only [List.nil_append] at hc
    obtain ⟨ch2, hch2, hw2⟩ := happLast
    refine ⟨⟨?_, appendTextOf newE, ch2, hc, hch2, hw2⟩, ?_⟩
    · rw [hc, headingTitles_append_newline, hHTapp]
      exact hnodupNew
    · rw [hc, headingTitles_append_newline, hHTapp, headingTitles_nil, List.nil_append]
  · obtain ⟨hnodupEx, A, ch, hA, hchA, hwA⟩ := hgood
    have hExNe : existing ≠ [] := by rw [hA]; simp
    rw [if_pos hExNe] at hc
    have hrs : rstrip existing = A := by
      rw [hA]
      exact rstrip_append_newline A ch hchA hwA
    rw [hrs] at hc
    have hHTc : headingTitles c = headingTitles existing ++ newE.map RefinedEntry.title := by
      rw [hc, headingTitles_append_newline, headingTitles_sep_append, hHTapp, hA,
        headingTitles_append_newline]
    refine ⟨⟨?_, ?_⟩, hHTc⟩
    · rw [hHTc]
      exact List.Nodup.append hnodupEx hnodupNew (fun t ht => hdisj t ht)
    · obtain ⟨ch2, hch2, hw2⟩ := happLast
      refine ⟨A ++ sepStr ++ appendTextOf newE, ch2, hc, ?_, hw2⟩
      rw [getLast?_append_right _ _ happne]
      exact hch2

theorem runLabels_goodFs (es : List RefinedEntry)
    (hE : ∀ e ∈ es, GoodEntry e) (hN : (es.map RefinedEntry.title).Nodup) :
    ∀ labels fs, GoodFs fs → GoodFs (runLabels es fs labels).1 := by
  intro labels
  induction labels with
  | nil =>
    intro fs h
    simpa [runLabels] using h
  | cons L Ls ih =>
    intro fs hfs
    simp only [runLabels]
    cases hmb : mergeBucket ((fs L).getD []) (es.filter fun e => decide (entryLabel e = L)) with
    | none => exact ih fs hfs
    | some c =>
      apply ih
      intro b c' hb
      by_cases hbL : b = L
      · subst hbL
        simp only [fsUpdate, if_pos rfl] at hb
        cases hb
        have hgE : ∀ e ∈ es.filter (fun e => decide (entryLabel e = b)), GoodEntry e :=
          fun e he => hE e (List.mem_of_mem_filter he)
        have hgN : ((es.filter fun e => decide (entryLabel e = b)).map RefinedEntry.title).Nodup :=
          ((List.filter_sublist es).map RefinedEntry.title).nodup hN
        have hEx : ((fs b).getD []) = [] ∨ GoodContent ((fs b).getD []) := by
          cases hfsb : fs b with
          | none => left; simp
          | some c0 =>
            right
            simpa using hfs b c0 hfsb
        exact (mergeBucket_goodContent _ _ _ hgE hgN hEx hmb).1
      · simp only [fsUpdate, if_neg hbL] at hb
        exact hfs b c' hb

theorem reachableVault_goodFs (fs : VaultFs) (h : ReachableVault fs) : GoodFs fs := by
  induction h with
  | init =>
    intro b c hb
    simp [emptyFs] at hb
  | step fs es _ hg ih =>
    exact runLabels_goodFs es hg.1 hg.2 (firstDedup [] (es.map entryLabel)) fs ih

theorem runLabels_fs_unchanged (es : List RefinedEntry) :
    ∀ labels fs b, b ∉ labels → (runLabels es fs labels).1 b = fs b := by
  intro labels
  induction labels with
  | nil => intro fs b _; rfl
  | cons L Ls ih =>
    intro fs b hb
    have hbL : b ≠ L := fun h => hb (h ▸ List.mem_cons_self L Ls)
    have hbLs : b ∉ Ls := fun h => hb (List.mem_cons_of_mem L h)
    simp only [runLabels]
    cases hmb : mergeBucket ((fs L).getD []) (es.filter fun e => decide (entryLabel e = L)) with
    | none => exact ih fs b hbLs
    | some c =>
      rw [ih (fsUpdate fs L c) b hbLs]
      simp [fsUpdate, hbL]

theorem mem_firstDedup (l : List Str) : ∀ (seen : List Str) (x : Str),
    x ∈ firstDedup seen l ↔ x ∈ l ∧ x ∉ seen := by
  induction l with
  | nil => intro seen x; simp [firstDedup]
  | cons a as ih =>
    intro seen x
    simp only [firstDedup]
    by_cases ha : a ∈ seen
    · rw [if_pos ha, ih seen x]
      constructor
      · rintro ⟨hx, hns⟩
        exact ⟨List.mem_cons_of_mem a hx, hns⟩
      · rintro ⟨hx, hns⟩
        rcases List.mem_cons.mp hx with rfl | hx
        · exact absurd ha hns
        · exact ⟨hx, hns⟩
    · rw [if_neg ha]
      constructor
      · intro hx
        rcases List.mem_cons.mp hx with rfl | hx
        · exact ⟨List.mem_cons_self _ _, ha⟩
        · obtain ⟨h1, h2⟩ := (ih (a :: seen) x).mp hx
          exact ⟨List.mem_cons_of_mem a h1, fun hs => h2 (List.mem_cons_of_mem a hs)⟩
      · rintro ⟨hx, hns⟩
        rcases List.mem_cons.mp hx with rfl | hx
        · exact List.mem_cons_self _ _
        · by_cases hxa : x = a
          · subst hxa
            exact List.mem_cons_self _ _
          · refine List.mem_cons_of_mem a ((ih (a :: seen) x).mpr ⟨hx, ?_⟩)
            intro hmem
            rcases List.mem_cons.mp hmem with h | h
            · exact hxa h
            · exact hns h

theorem firstDedup_nodup (l : List Str) : ∀ seen : List Str, (firstDedup seen l).Nodup := by
  induction l with
  | nil => intro seen; simp [firstDedup]
  | cons a as ih =>
    intro seen
    simp only [firstDedup]
    by_cases ha : a ∈ seen
    · rw [if_pos ha]
      exact ih seen
    · rw [if_neg ha]
      refine List.nodup_cons.mpr ⟨?_, ih (a :: seen)⟩
      intro hmem
      exact ((mem_firstDedup as (a :: seen) a).mp hmem).2 (List.mem_cons_self _ _)

/-- After one merge run, every entry whose bucket label was processed
has its title present as a heading of that bucket's file (the title
must be nonempty and newline-free to be recognisable as a heading, and
stored files must not hide headings behind trailing whitespace). -/
theorem runLabels_title_mem (es : List RefinedEntry)
    (hT : ∀ e ∈ es, e.title ≠ [] ∧ '\n' ∉ e.title) :
    ∀ labels fs, labels.Nodup →
      (∀ L ∈ labels, ∀ c, fs L = some c → headingTitles (rstrip c) = headingTitles c) →
      ∀ e ∈ es, entryLabel e ∈ labels →
        e.title ∈ headingTitles (((runLabels es fs labels).1 (entryLabel e)).getD []) := by
  intro labels
  induction labels with
  | nil =>
    intro fs _ _ e _ h
    simp at h
  | cons L Ls ih =>
    intro fs hnd hstab e he hin
    have hndLs : Ls.Nodup := (List.nodup_cons.mp hnd).2
    have hLnotLs : L ∉ Ls := (List.nodup_cons.mp hnd).1
    by_cases heL : entryLabel e = L
    · simp only [runLabels]
      cases hmb : mergeBucket ((fs L).getD []) (es.filter fun x => decide (entryLabel x = L)) with
      | none =>
        rw [heL, runLabels_fs_unchanged es Ls fs L hLnotLs]
        have hmem : e ∈ es.filter fun x => decide (entryLabel x = L) :=
          List.mem_filter.mpr ⟨he, by simp [heL]⟩
        exact mergeBucket_eq_none _ _ hmb e hmem
      | some c =>
        rw [heL]
        have hL : (runLabels es (fsUpdate fs L c) Ls).1 L = some c := by
          rw [runLabels_fs_unchanged es Ls _ L hLnotLs]
          simp [fsUpdate]
        rw [hL]
        simp only [Option.getD_some]
        obtain ⟨hne, hc⟩ := mergeBucket_eq_some _ _ _ hmb
        set existing := (fs L).getD [] with hdefEx
        set newE := (es.filter fun x => decide (entryLabel x = L)).filter
          (fun x => decide (x.title ∉ headingTitles existing)) with hdefNewE
        have hsplit : headingTitles c =
            headingTitles existing ++ headingTitles (appendTextOf newE) := by
          by_cases hex : existing = []
          · rw [hex] at hc
            have hcond : ¬ (([] : Str) ≠ []) := by simp
            rw [if_neg hcond] at hc
            simp only [List.nil_append] at hc
            rw [hc, headingTitles_append_newline, hex, headingTitles_nil, List.nil_append]
          · rw [if_pos hex] at hc
            have hsome : fs L = some existing := by
              cases hfsL : fs L with
              | none =>
                rw [hdefEx, hfsL] at hex
                simp at hex
              | some c0 =>
                rw [hdefEx, hfsL]
                rfl
            have hstabL := hstab L (List.mem_cons_self _ _) existing hsome
            rw [hc, headingTitles_append_newline, headingTitles_sep_append, hstabL]
        rw [hsplit]
        by_cases htmem : e.title ∈ headingTitles existing
        · exact List.mem_append.mpr (Or.inl htmem)
        · refine List.mem_append.mpr (Or.inr ?_)
          have hmemN : e ∈ newE := by
            rw [hdefNewE]
            refine List.mem_filter.mpr ⟨List.mem_filter.mpr ⟨he, by simp [heL]⟩, by simp [htmem]⟩
          exact title_mem_headingTitles_appendTextOf newE e hmemN (hT e he).1 (hT e he).2
    · have hinLs : entryLabel e ∈ Ls := by
        rcases List.mem_cons.mp hin with h | h
        · exact absurd h heL
        · exact h
      simp only [runLabels]
      cases hmb : mergeBucket ((fs L).getD []) (es.filter fun x => decide (entryLabel x = L)) with
      | none =>
        exact ih fs hndLs (fun L' hL' => hstab L' (List.mem_cons_of_mem L hL')) e he hinLs
      | some c =>
        refine ih (fsUpdate fs L c) hndLs ?_ e he hinLs
        intro L' hL' c' hc'
        have hne' : L' ≠ L := fun h => hLnotLs (h ▸ hL')
        simp only [fsUpdate, if_neg hne'] at hc'
        exact hstab L' (List.mem_cons_of_mem L hL') c' hc'

theorem runLabels_written_nil (es : List RefinedEntry) :
    ∀ labels fs,
      (∀ L ∈ labels, ∀ e ∈ es, entryLabel e = L → e.title ∈ headingTitles ((fs L).getD [])) →
      (runLabels es fs labels).2 = [] := by
  intro labels
  induction labels with
  | nil => intro fs _; rfl
  | cons L Ls ih =>
    intro fs hcov
    simp only [runLabels]
    have hmb : mergeBucket ((fs L).getD []) (es.filter fun e => decide (entryLabel e = L)) =
        none := by
      simp only [mergeBucket]
      have hfilt : (es.filter fun e => decide (entryLabel e = L)).filter
          (fun e => decide (e.title ∉ headingTitles ((fs L).getD []))) = [] := by
        rw [List.filter_eq_nil_iff]
        intro e he
        have hgroup := List.mem_filter.mp he
        have hlab : entryLabel e = L := by simpa using hgroup.2
        have hx := hcov L (List.mem_cons_self _ _) e hgroup.1 hlab
        simp [hx]
      rw [if_pos hfilt]
    rw [hmb]
    exact ih fs (fun L' hL' => hcov L' (List.mem_cons_of_mem L hL'))

-- ── Lemmas: the content vault ───────────────────────────────────────

theorem saveToContentVault_fs_mono (posts : List SocialPost) :
    ∀ fs p, (fs p).isSome = true → (((saveToContentVault fs posts).1) p).isSome = true := by
  induction posts with
  | nil => intro fs p h; exact h
  | cons q qs ih =>
    intro fs p h
    simp only [saveToContentVault]
    by_cases hq : (fs (vaultPath q)).isSome = true
    · rw [if_pos hq]
      exact ih fs p h
    · rw [if_neg hq]
      apply ih
      simp only [fsUpdate]
      by_cases hpq : p = vaultPath q
      · rw [if_pos hpq]
        rfl
      · rw [if_neg hpq]
        exact h

theorem saveToContentVault_covers (posts : List SocialPost) :
    ∀ fs p, p ∈ posts → (((saveToContentVault fs posts).1) (vaultPath p)).isSome = true := by
  induction posts with
  | nil =>
    intro fs p h
    simp at h
  | cons q qs ih =>
    intro fs p hp
    simp only [saveToContentVault]
    by_cases hq : (fs (vaultPath q)).isSome = true
    · rw [if_pos hq]
      rcases List.mem_cons.mp hp with rfl | hp
      · exact saveToContentVault_fs_mono qs fs (vaultPath p) hq
      · exact ih fs p hp
    · rw [if_neg hq]
      rcases List.mem_cons.mp hp with rfl | hp
      · apply saveToContentVault_fs_mono
        simp [fsUpdate]
      · exact ih _ p hp

theorem saveToContentVault_written_nil (posts : List SocialPost) :
    ∀ fs, (∀ p ∈ posts, (fs (vaultPath p)).isSome = true) →
      (saveToContentVault fs posts).2 = [] := by
  induction posts with
  | nil => intro fs _; rfl
  | cons q qs ih =>
    intro fs hcov
    simp only [saveToContentVault]
    rw [if_pos (hcov q (List.mem_cons_self _ _))]
    exact ih fs (fun p hp => hcov p (List.mem_cons_of_mem q hp))

-- ── Claim C1 ────────────────────────────────────────────────────────

/-- C1, counterexample: `merge_to_shared_posts` computes the set of
existing titles once per bucket and run, so a single run whose input
contains two refined entries with the same title bound for the same
week bucket appends both, leaving two identical `## T` headings in the
bucket file.  This refutes the claim's "including when a single run's
input contains two refined entries with the same title" clause. -/
theorem claim1_counterexample :
    ¬ (headingTitles (((mergeToSharedPosts
        [⟨"T".data, "body1".data, "2025-01-06".data⟩,
         ⟨"T".data, "body2".data, "2025-01-06".data⟩] emptyFs).1
        (isoWeekLabel ("2025-01-06".data))).getD [])).Nodup := by
  decide

/-- C1, amended: starting from an empty store, after any number of
merge runs whose entries have pairwise-distinct, nonempty,
newline-free titles and whose contents are nonempty, carry no trailing
whitespace and contain no `## `-marked line, no bucket file ever holds
two headings with identical title text. -/
theorem claim1_merge_no_duplicate_headings (fs : VaultFs) (h : ReachableVault fs) (b : Str) :
    (headingTitles ((fs b).getD [])).Nodup := by
  have hg := reachableVault_goodFs fs h
  cases hfs : fs b with
  | none => simp [headingTitles_nil]
  | some c => simpa using (hg b c hfs).1

/-- C1, witness: the amended theorem applied to the store produced by
one concrete merge run. -/
theorem claim1_witness :
    (headingTitles (((mergeToSharedPosts [⟨"T".data, "body".data, "2025-01-06".data⟩]
      emptyFs).1 ("Week 2 - 2025".data)).getD [])).Nodup :=
  claim1_merge_no_duplicate_headings _
    (ReachableVault.step emptyFs _ ReachableVault.init (by decide)) _

-- ── Claim C2 ────────────────────────────────────────────────────────

/-- C2, counterexample: a refined artifact whose single block has a
whitespace-only title line parses to a `RefinedEntry` with empty
title; the merge appends a bare `## ` line that the heading regex
`^## (.+)$` does not match, so a second publish run with the unchanged
artifact appends the same entry again instead of skipping it. -/
theorem claim2_counterexample :
    ((fun es => (mergeToSharedPosts es (mergeToSharedPosts es emptyFs).1).2)
      (parseRefinedEntries ("##  \nbody".data)
        [⟨"t".data, "b".data, "f.md".data, "2025-01-06".data⟩] ("2026-10-12".data))) ≠ [] := by
  decide

/-- C2, amended: a second publish run with unchanged refined input
produces zero additional writes, provided every refined entry's title
is nonempty and newline-free (as needed for the written `## ` heading
to be recognised on re-reading) and stored bucket files do not hide
headings behind trailing whitespace; the per-entry content-vault save
is unconditionally idempotent. -/
theorem claim2_second_run_no_writes (fs cfs : VaultFs) (es : List RefinedEntry)
    (posts : List SocialPost)
    (hT : ∀ e ∈ es, e.title ≠ [] ∧ '\n' ∉ e.title)
    (hstab : ∀ b c, fs b = some c → headingTitles (rstrip c) = headingTitles c) :
    (mergeToSharedPosts es (mergeToSharedPosts es fs).1).2 = [] ∧
    (saveToContentVault (saveToContentVault cfs posts).1 posts).2 = [] := by
  constructor
  · show (runLabels es (mergeToSharedPosts es fs).1 (firstDedup [] (es.map entryLabel))).2 = []
    apply runLabels_written_nil
    intro L hL e he hlab
    subst hlab
    exact runLabels_title_mem es hT _ fs (firstDedup_nodup _ [])
      (fun L' _ c hc => hstab L' c hc) e he
      ((mem_firstDedup _ [] _).mpr ⟨List.mem_map_of_mem entryLabel he, by simp⟩)
  · apply saveToContentVault_written_nil
    intro p hp
    exact saveToContentVault_covers posts cfs p hp

/-- C2, witness: the amended theorem applied to one concrete refined
entry and one concrete post over empty stores. -/
theorem claim2_witness :
    (mergeToSharedPosts [⟨"T".data, "body".data, "2025-01-06".data⟩]
      (mergeToSharedPosts [⟨"T".data, "body".data, "2025-01-06".data⟩] emptyFs).1).2 = [] ∧
    (saveToContentVault (saveToContentVault emptyFs
        [⟨"T".data, "brief".data, "tw".data, "li".data, "yt".data, "2025-01-06".data⟩]).1
      [⟨"T".data, "brief".data, "tw".data, "li".data, "yt".data, "2025-01-06".data⟩]).2 = [] :=
  claim2_second_run_no_writes emptyFs emptyFs _ _ (by decide)
    (fun b c hb => by simp [emptyFs] at hb)

-- ── Claim C9 ────────────────────────────────────────────────────────

/-- C9, counterexample: an existing bucket file ending in a trailing
space is not preserved as a literal prefix of the new content, because
the merge appends below `existing_content.rstrip()`. -/
theorem claim9_counterexample :
    (mergeBucket ("## A ".data) [⟨"T".data, "body".data, "2025-01-06".data⟩]).map
      (fun c => ("## A ".data).isPrefixOf c) = some false := by
  decide

/-- C9, amended: when the per-bucket write of `merge_to_shared_posts`
updates an existing bucket file, the previous content is preserved up
to trailing whitespace — its `rstrip` is a literal prefix of the new
content, followed by the `===` separator block and the appended
entries — and a pipeline-written file (non-whitespace text followed by
exactly one final newline) is preserved in full. -/
theorem claim9_append_only (existing : Str) (entries : List RefinedEntry) (c : Str)
    (hne : existing ≠ []) (h : mergeBucket existing entries = some c) :
    (c = rstrip existing ++ sepStr ++
      appendTextOf (entries.filter fun e => decide (e.title ∉ headingTitles existing)) ++
      ['\n']) ∧
    (∀ A ch, existing = A ++ ['\n'] → A.getLast? = some ch → isWsChar ch = false →
      ∃ t, c = existing ++ t) := by
  obtain ⟨hneE, hc⟩ := mergeBucket_eq_some existing entries c h
  rw [if_pos hne] at hc
  refine ⟨hc, ?_⟩
  intro A ch hA hch hw
  have hrs : rstrip existing = A := by
    rw [hA]
    exact rstrip_append_newline A ch hch hw
  refine ⟨'\n' :: ("===".data ++ '\n' :: ('\n' ::
    (appendTextOf (entries.filter fun e => decide (e.title ∉ headingTitles existing)) ++
      ['\n']))), ?_⟩
  rw [hc, hrs, hA]
  simp only [List.append_assoc, List.cons_append, List.singleton_append]
  rfl

/-- C9, witness: the amended theorem applied to a concrete
pipeline-shaped existing file and one new entry. -/
theorem claim9_witness :
    mergeBucket ("## A\n\nold\n".data) [⟨"T".data, "body".data, "2025-01-06".data⟩] =
      some ("## A\n\nold".data ++ sepStr ++
        appendTextOf [⟨"T".data, "body".data, "2025-01-06".data⟩] ++ ['\n']) ∧
    ∃ t, "## A\n\nold".data ++ sepStr ++
        appendTextOf [⟨"T".data, "body".data, "2025-01-06".data⟩] ++ ['\n'] =
      "## A\n\nold\n".data ++ t := by
  constructor
  · decide
  · exact (claim9_append_only ("## A\n\nold\n".data)
      [⟨"T".data, "body".data, "2025-01-06".data⟩]
      ("## A\n\nold".data ++ sepStr ++
        appendTextOf [⟨"T".data, "body".data, "2025-01-06".data⟩] ++ ['\n'])
      (by decide) (by decide)).2
      ("## A\n\nold".data) 'd' (by decide) (by decide) (by decide)

-- ── Lemmas: the result parser ───────────────────────────────────────

/-- When every block carries a title, `_parse_refined_entries` yields
one record per block and attaches `pickedDate` at the block's
position. -/
theorem parseRefinedAux_dates (src : List ShareEntry) (today : Str) :
    ∀ (bs : List Str) (i : Nat), (∀ b ∈ bs, (refinedTitle b).isSome = true) →
      (parseRefinedAux src today i bs).length = bs.length ∧
      ∀ j, j < bs.length →
        ((parseRefinedAux src today i bs).getD j ⟨[], [], []⟩).source_date =
          pickedDate src today (i + j) := by
  intro bs
  induction bs with
  | nil =>
    intro i _
    exact ⟨rfl, fun j hj => absurd hj (by simp)⟩
  | cons b bs ih =>
    intro i h
    have hb := h b (List.mem_cons_self _ _)
    obtain ⟨ihlen, ihspec⟩ := ih (i + 1) (fun b' hb' => h b' (List.mem_cons_of_mem b hb'))
    cases ht : refinedTitle b with
    | none =>
      rw [ht] at hb
      simp at hb
    | some t =>
      have heq : parseRefinedAux src today i (b :: bs) =
          ⟨t, refinedContent b, pickedDate src today i⟩ ::
            parseRefinedAux src today (i + 1) bs := by
        simp only [parseRefinedAux, ht]
      rw [heq]
      constructor
      · simp [ihlen]
      · intro j hj
        cases j with
        | zero => simp
        | succ j' =>
          have hj' : j' < bs.length := by simpa using hj
          have hx := ihspec j' hj'
          simp only [List.getD_cons_succ]
          rw [hx]
          congr 1
          omega

-- ── Claim C3 ────────────────────────────────────────────────────────

/-- C3, counterexample: an original entry whose `source_date` is the
empty string does not keep it — the parsed record's provenance is
today's date instead, so the re-attached provenance does not match the
original sequence at that position. -/
theorem claim3_counterexample :
    ((parseRefinedEntries ("## T2\nstuff".data)
        [⟨"T".data, "b".data, "f.md".data, []⟩] ("2026-10-12".data)).map
      RefinedEntry.source_date = [("2026-10-12".data)]) ∧
    ((parseRefinedEntries ("## T2\nstuff".data)
        [⟨"T".data, "b".data, "f.md".data, []⟩] ("2026-10-12".data)).map
      RefinedEntry.source_date ≠ [[]]) := by
  decide

/-- C3, amended: when the `===`-separated block count equals the entry
count, every block carries a `## ` title, and every original entry
has a nonempty `source_date`, `_parse_refined_entries` assigns to the
record at position `i` exactly the `source_date` of the original entry
at position `i`.  (An empty original date is replaced by today's date
instead of being carried through.) -/
theorem claim3_positional_provenance (text : Str) (src : List ShareEntry) (today : Str)
    (hblocks : ∀ b ∈ blocksOf text, (refinedTitle b).isSome = true)
    (hcount : (blocksOf text).length = src.length)
    (hdates : ∀ e ∈ src, e.source_date ≠ []) :
    (parseRefinedEntries text src today).length = src.length ∧
    ∀ j, j < src.length →
      ((parseRefinedEntries text src today).getD j ⟨[], [], []⟩).source_date =
        (src.getD j ⟨[], [], [], []⟩).source_date := by
  obtain ⟨hlen, hspec⟩ := parseRefinedAux_dates src today (blocksOf text) 0 hblocks
  constructor
  · show (parseRefinedAux src today 0 (blocksOf text)).length = src.length
    rw [hlen, hcount]
  · intro j hj
    have hjb : j < (blocksOf text).length := by rw [hcount]; exact hj
    have hx := hspec j hjb
    show ((parseRefinedAux src today 0 (blocksOf text)).getD j ⟨[], [], []⟩).source_date = _
    rw [hx]
    have hgetEq : src.getD j ⟨[], [], [], []⟩ = src[j] := by
      simp [List.getD_eq_getElem?_getD, List.getElem?_eq_getElem hj]
    have hmem : src.getD j ⟨[], [], [], []⟩ ∈ src := by
      rw [hgetEq]
      exact List.getElem_mem hj
    have hne := hdates _ hmem
    rw [hgetEq] at hne
    unfold pickedDate
    simp [Nat.zero_add, hj, hne, hgetEq]

/-- C3, witness: the amended theorem applied to a two-block artifact
and two dated entries. -/
theorem claim3_witness :
    ((parseRefinedEntries ("## A\nx\n===\n## B\ny".data)
        [⟨"t1".data, "b1".data, "f".data, "2025-01-06".data⟩,
         ⟨"t2".data, "b2".data, "f".data, "2025-01-07".data⟩]
        ("2026-10-12".data)).getD 0 ⟨[], [], []⟩).source_date =
      (([⟨"t1".data, "b1".data, "f".data, "2025-01-06".data⟩,
         ⟨"t2".data, "b2".data, "f".data, "2025-01-07".data⟩] :
        List ShareEntry).getD 0 ⟨[], [], [], []⟩).source_date :=
  (claim3_positional_provenance ("## A\nx\n===\n## B\ny".data)
    [⟨"t1".data, "b1".data, "f".data, "2025-01-06".data⟩,
     ⟨"t2".data, "b2".data, "f".data, "2025-01-07".data⟩]
    ("2026-10-12".data) (by decide) (by decide) (by decide)).2 0 (by decide)

-- ── Claim C6 ────────────────────────────────────────────────────────

/-- C6, counterexample: with fewer blocks (one) than original entries
(two), `_parse_refined_entries` produces exactly one record carrying
entry 0's date.  No record falls back to the current date — the
trailing original entry is silently dropped, contradicting the claim
that the fewer-blocks case yields trailing current-date records. -/
theorem claim6_counterexample :
    parseRefinedEntries ("## T\nx".data)
      [⟨"t1".data, "b1".data, "f".data, "2025-01-01".data⟩,
       ⟨"t2".data, "b2".data, "f".data, "2025-01-02".data⟩] ("2026-10-12".data) =
      [⟨"T".data, "x".data, "2025-01-01".data⟩] := by
  decide

/-- C6, amended: the degradation runs in the opposite direction: when
the remote output has MORE titled blocks than original entries, each
record whose block position overruns the original sequence gets
today's date (with a logged warning) and parsing continues, producing
one record per block; with fewer blocks the trailing entries simply
yield no records. -/
theorem claim6_overrun_defaults_today (text : Str) (src : List ShareEntry) (today : Str)
    (hblocks : ∀ b ∈ blocksOf text, (refinedTitle b).isSome = true) :
    (parseRefinedEntries text src today).length = (blocksOf text).length ∧
    ∀ j, j < (blocksOf text).length → src.length ≤ j →
      ((parseRefinedEntries text src today).getD j ⟨[], [], []⟩).source_date = today := by
  obtain ⟨hlen, hspec⟩ := parseRefinedAux_dates src today (blocksOf text) 0 hblocks
  refine ⟨hlen, ?_⟩
  intro j hj hge
  have hx := hspec j hj
  show ((parseRefinedAux src today 0 (blocksOf text)).getD j ⟨[], [], []⟩).source_date = _
  rw [hx]
  unfold pickedDate
  have hnotlt : ¬ (0 + j < src.length) := by omega
  simp [if_neg hnotlt]
  intro h
  exact absurd h (by omega)

/-- C6, witness: the amended theorem applied to a two-block artifact
with a single original entry — the overrunning second record carries
today's date. -/
theorem claim6_witness :
    ((parseRefinedEntries ("## A\nx\n===\n## B\ny".data)
        [⟨"t1".data, "b1".data, "f".data, "2025-01-06".data⟩]
        ("2026-10-12".data)).getD 1 ⟨[], [], []⟩).source_date = "2026-10-12".data :=
  (claim6_overrun_defaults_today ("## A\nx\n===\n## B\ny".data)
    [⟨"t1".data, "b1".data, "f".data, "2025-01-06".data⟩]
    ("2026-10-12".data) (by decide)).2 1 (by decide) (by decide)

-- ── Lemmas: the retry loops ─────────────────────────────────────────

/-- One transient iteration of `_call_claude`'s loop: sleep, then
retry with the next attempt index. -/
theorem callClaudeFrom_transient (responses : Nat → Resp) (attempt fuel : Nat)
    (ht : isTransientResp (responses attempt) = true) :
    callClaudeFrom responses attempt (fuel + 1) =
      ⟨(callClaudeFrom responses (attempt + 1) fuel).text,
       retryDelay attempt :: (callClaudeFrom responses (attempt + 1) fuel).sleeps,
       (callClaudeFrom responses (attempt + 1) fuel).attempts + 1⟩ := by
  cases hr : responses attempt with
  | ok blocks st =>
    rw [hr] at ht
    simp [isTransientResp] at ht
  | status code =>
    rw [hr] at ht
    simp only [isTransientResp, decide_eq_true_eq] at ht
    simp [callClaudeFrom, hr, ht]
  | timeout => simp [callClaudeFrom, hr]
  | reqError =>
    rw [hr] at ht
    simp [isTransientResp] at ht

/-- A 200 response ends `_call_claude_api`'s loop with the joined text
blocks and the `stop_reason == "max_tokens"` flag. -/
theorem callClaudeApiFrom_ok (responses : Nat → Resp) (attempt fuel : Nat)
    (blocks : List ContentBlock) (st : Option Str)
    (hr : responses attempt = Resp.ok blocks st) :
    callClaudeApiFrom responses attempt (fuel + 1) =
      (joinTextBlocks blocks, decide (st = some ("max_tokens".data))) := by
  simp [callClaudeApiFrom, hr]

-- ── Claim C4 ────────────────────────────────────────────────────────

/-- C4: when every attempt yields a transient-error status
(429/500/502/503/529) or a timeout, `_call_claude` issues exactly
`MAX_RETRIES` (3) requests, sleeps `RETRY_BASE_DELAY * 2 ** attempt`
seconds after each failed attempt — so each inter-attempt delay is
double the previous — and returns the empty string as the failed
outcome. -/
theorem claim4_retry_bound (responses : Nat → Resp)
    (h : ∀ i, i < MAX_RETRIES → isTransientResp (responses i) = true) :
    callClaude responses =
      ⟨[], [retryDelay 0, retryDelay 1, retryDelay 2], MAX_RETRIES⟩ ∧
    2 * retryDelay 0 ≤ retryDelay 1 ∧ 2 * retryDelay 1 ≤ retryDelay 2 := by
  refine ⟨?_, by decide, by decide⟩
  have e2 : callClaudeFrom responses 2 1 = ⟨[], [retryDelay 2], 1⟩ :=
    callClaudeFrom_transient responses 2 0 (h 2 (by decide))
  have e1 : callClaudeFrom responses 1 2 = ⟨[], [retryDelay 1, retryDelay 2], 2⟩ := by
    have hx : callClaudeFrom responses 1 2 =
        ⟨(callClaudeFrom responses 2 1).text,
         retryDelay 1 :: (callClaudeFrom responses 2 1).sleeps,
         (callClaudeFrom responses 2 1).attempts + 1⟩ :=
      callClaudeFrom_transient responses 1 1 (h 1 (by decide))
    rw [hx, e2]
  have e0 : callClaudeFrom responses 0 3 =
      ⟨[], [retryDelay 0, retryDelay 1, retryDelay 2], 3⟩ := by
    have hx : callClaudeFrom responses 0 3 =
        ⟨(callClaudeFrom responses 1 2).text,
         retryDelay 0 :: (callClaudeFrom responses 1 2).sleeps,
         (callClaudeFrom responses 1 2).attempts + 1⟩ :=
      callClaudeFrom_transient responses 0 2 (h 0 (by decide))
    rw [hx, e1]
  exact e0

/-- C4, witness: a service that always answers 429. -/
theorem claim4_witness :
    callClaude (fun _ => Resp.status 429) =
      ⟨[], [retryDelay 0, retryDelay 1, retryDelay 2], MAX_RETRIES⟩ :=
  (claim4_retry_bound (fun _ => Resp.status 429) (fun _ _ => rfl)).1

-- ── Claim C5 ────────────────────────────────────────────────────────

/-- C5, counterexample: in the share pipeline variant an empty remote
result aborts the whole run — `refine_for_twitter` raises `SystemExit`
(modelled as `Except.error`) when `_call_claude` returns the empty
string, so it is not true that no pipeline variant aborts. -/
theorem claim5_counterexample :
    refineForTwitter true ("## T\n\nbody".data) (fun _ => []) =
      Except.error ("ERROR: Claude API returned empty response for refinement.".data) := by
  rfl

/-- C5, amended: in refine.py's `refine_all`, a date whose remote call
returns an empty result is only counted failed — the remaining dates
are processed exactly as without it; in the share pipeline variants
the single batched call's empty result terminates the run with
`SystemExit`. -/
theorem claim5_empty_result_isolated (exists0 : Str → Bool) (force : Bool)
    (api : Str → Str × Bool) (date : Str) (entries : List (Str × Str))
    (rest : List (Str × List (Str × Str)))
    (hskip : (exists0 date && !force) = false)
    (hempty : (api (buildUserMessage date entries)).1 = []) :
    refineAll exists0 force false api ((date, entries) :: rest) =
      ⟨(refineAll exists0 force false api rest).success,
       (refineAll exists0 force false api rest).skipped,
       (refineAll exists0 force false api rest).failed + 1,
       (refineAll exists0 force false api rest).writes⟩ ∧
    ∀ extracted, refineForTwitter true extracted (fun _ => []) =
      Except.error ("ERROR: Claude API returned empty response for refinement.".data) := by
  constructor
  · simp only [refineAll, hskip]
    simp [hempty]
  · intro extracted
    rfl

/-- C5, witness: two dates whose calls both return empty — the first
is marked failed and the second is still processed (and marked failed
as well), with no write and no abort. -/
theorem claim5_witness :
    refineAll (fun _ => false) false false (fun _ => ([], false))
        [("2025-01-01".data, [("0900".data, "hi".data)]),
         ("2025-01-02".data, [("0910".data, "yo".data)])] =
      ⟨(refineAll (fun _ => false) false false (fun _ => ([], false))
          [("2025-01-02".data, [("0910".data, "yo".data)])]).success,
       (refineAll (fun _ => false) false false (fun _ => ([], false))
          [("2025-01-02".data, [("0910".data, "yo".data)])]).skipped,
       (refineAll (fun _ => false) false false (fun _ => ([], false))
          [("2025-01-02".data, [("0910".data, "yo".data)])]).failed + 1,
       (refineAll (fun _ => false) false false (fun _ => ([], false))
          [("2025-01-02".data, [("0910".data, "yo".data)])]).writes⟩ :=
  (claim5_empty_result_isolated (fun _ => false) false (fun _ => ([], false))
    ("2025-01-01".data) [("0900".data, "hi".data)]
    [("2025-01-02".data, [("0910".data, "yo".data)])] rfl rfl).1

-- ── Claim C7 ────────────────────────────────────────────────────────

/-- C7, counterexample: a 200 response with stop_reason "max_tokens"
but no text blocks yields `("", truncated = true)`; `refine_all` then
counts that date as failed and writes nothing, so not every truncated
200 response ends in the success count. -/
theorem claim7_counterexample :
    callClaudeApi (fun _ => Resp.ok [] (some ("max_tokens".data))) = ([], true) ∧
    refineAll (fun _ => false) false false
        (fun _ => callClaudeApi (fun _ => Resp.ok [] (some ("max_tokens".data))))
        [("2025-01-01".data, [("0900".data, "hi".data)])] =
      ⟨0, 0, 1, []⟩ := by
  constructor
  · rfl
  · rfl

/-- C7, amended: a 200 response whose stop_reason is "max_tokens"
makes `_call_claude_api` report `truncated = true` with the joined
text blocks; provided that text is nonempty, `refine_all` appends the
visible `[TRUNCATED]` marker to the written output and counts the date
as a success, not a failure. -/
theorem claim7_truncation_flagged (responses : Nat → Resp) (blocks : List ContentBlock)
    (hr : responses 0 = Resp.ok blocks (some ("max_tokens".data)))
    (exists0 : Str → Bool) (force : Bool) (date : Str) (entries : List (Str × Str))
    (rest : List (Str × List (Str × Str)))
    (hskip : (exists0 date && !force) = false)
    (api : Str → Str × Bool)
    (hapi : api (buildUserMessage date entries) = callClaudeApi responses)
    (hne : joinTextBlocks blocks ≠ []) :
    callClaudeApi responses = (joinTextBlocks blocks, true) ∧
    refineAll exists0 force false api ((date, entries) :: rest) =
      ⟨(refineAll exists0 force false api rest).success + 1,
       (refineAll exists0 force false api rest).skipped,
       (refineAll exists0 force false api rest).failed,
       (date, frontMatterFor date entries.length ++
          (joinTextBlocks blocks ++ "\n\n[TRUNCATED]\n".data)) ::
        (refineAll exists0 force false api rest).writes⟩ := by
  have hcall : callClaudeApi responses = (joinTextBlocks blocks, true) :=
    callClaudeApiFrom_ok responses 0 2 blocks (some ("max_tokens".data)) hr
  refine ⟨hcall, ?_⟩
  simp only [refineAll, hskip]
  simp [hapi, hcall, hne]

/-- C7, witness: a concrete truncated 200 response with one text
block. -/
theorem claim7_witness :
    callClaudeApi (fun _ => Resp.ok [⟨"text".data, "hello".data⟩]
        (some ("max_tokens".data))) =
      (joinTextBlocks [⟨"text".data, "hello".data⟩], true) ∧
    refineAll (fun _ => false) false false
        (fun _ => callClaudeApi (fun _ => Resp.ok [⟨"text".data, "hello".data⟩]
          (some ("max_tokens".data))))
        [("2025-01-01".data, [("0900".data, "hi".data)])] =
      ⟨(refineAll (fun _ => false) false false
          (fun _ => callClaudeApi (fun _ => Resp.ok [⟨"text".data, "hello".data⟩]
            (some ("max_tokens".data)))) []).success + 1,
       (refineAll (fun _ => false) false false
          (fun _ => callClaudeApi (fun _ => Resp.ok [⟨"text".data, "hello".data⟩]
            (some ("max_tokens".data)))) []).skipped,
       (refineAll (fun _ => false) false false
          (fun _ => callClaudeApi (fun _ => Resp.ok [⟨"text".data, "hello".data⟩]
            (some ("max_tokens".data)))) []).failed,
       ("2025-01-01".data, frontMatterFor ("2025-01-01".data)
          [("0900".data, "hi".data)].length ++
          (joinTextBlocks [⟨"text".data, "hello".data⟩] ++ "\n\n[TRUNCATED]\n".data)) ::
        (refineAll (fun _ => false) false false
          (fun _ => callClaudeApi (fun _ => Resp.ok [⟨"text".data, "hello".data⟩]
            (some ("max_tokens".data)))) []).writes⟩ :=
  claim7_truncation_flagged
    (fun _ => Resp.ok [⟨"text".data, "hello".data⟩] (some ("max_tokens".data)))
    [⟨"text".data, "hello".data⟩] rfl (fun _ => false) false ("2025-01-01".data)
    [("0900".data, "hi".data)] [] rfl _ rfl (by decide)

-- ── Lemmas: safe filenames ──────────────────────────────────────────

theorem head?_dropWhile_not (p : Char → Bool) (l : Str) (ch : Char)
    (h : (l.dropWhile p).head? = some ch) : p ch = false := by
  induction l with
  | nil => simp at h
  | cons c rest ih =>
    rw [List.dropWhile_cons] at h
    by_cases hc : p c = true
    · rw [if_pos hc] at h
      exact ih h
    · rw [if_neg hc] at h
      simp only [List.head?_cons, Option.some.injEq] at h
      subst h
      simpa using hc

theorem mem_stripChars (cs : List Char) (s : Str) (x : Char)
    (h : x ∈ stripChars cs s) : x ∈ s := by
  unfold stripChars at h
  rw [List.mem_reverse] at h
  exact List.dropWhile_subset _ (by simpa using List.dropWhile_subset _ h)

theorem getLast?_stripChars_not_mem (cs : List Char) (s : Str) (ch : Char)
    (h : (stripChars cs s).getLast? = some ch) : ch ∉ cs := by
  unfold stripChars at h
  rw [List.getLast?_reverse] at h
  have := head?_dropWhile_not _ _ _ h
  simpa using this

theorem head?_stripChars_not_mem (cs : List Char) (s : Str) (ch : Char)
    (h : (stripChars cs s).head? = some ch) : ch ∉ cs := by
  unfold stripChars at h
  set z := s.dropWhile (fun c => decide (c ∈ cs)) with hz
  set y := z.reverse.dropWhile (fun c => decide (c ∈ cs)) with hy
  have hzdec : z.reverse.takeWhile (fun c => decide (c ∈ cs)) ++ y = z.reverse :=
    List.takeWhile_append_dropWhile _ _
  have hz2 : z = y.reverse ++ (z.reverse.takeWhile (fun c => decide (c ∈ cs))).reverse := by
    have hr := congrArg List.reverse hzdec
    rw [List.reverse_append] at hr
    rw [hr, List.reverse_reverse]
  have hhz : z.head? = some ch := by
    rw [hz2, List.head?_append, h]
    rfl
  have := head?_dropWhile_not _ _ _ hhz
  simpa using this

theorem mem_safeFilename_not_bad (title : Str) (x : Char)
    (h : x ∈ safeFilename title) : x ∉ badFileChars := by
  unfold safeFilename at h
  by_cases hs : stripChars ['.', ' '] (title.map fun ch =>
      if ch ∈ badFileChars then '-' else ch) = []
  · rw [if_pos hs] at h
    intro hbad
    fin_cases hbad <;> simp_all
  · rw [if_neg hs] at h
    have hmem := mem_stripChars _ _ _ h
    obtain ⟨ch, _, hch⟩ := List.mem_map.mp hmem
    by_cases hb : ch ∈ badFileChars
    · rw [if_pos hb] at hch
      subst hch
      decide
    · rw [if_neg hb] at hch
      subst hch
      exact hb

theorem saveToContentVault_written_paths (posts : List SocialPost) :
    ∀ fs, ∀ q ∈ (saveToContentVault fs posts).2, ∃ post ∈ posts, q = vaultPath post := by
  induction posts with
  | nil =>
    intro fs q hq
    simp [saveToContentVault] at hq
  | cons p ps ih =>
    intro fs q hq
    simp only [saveToContentVault] at hq
    by_cases hp : (fs (vaultPath p)).isSome = true
    · rw [if_pos hp] at hq
      obtain ⟨post, hpost, rfl⟩ := ih fs q hq
      exact ⟨post, List.mem_cons_of_mem p hpost, rfl⟩
    · rw [if_neg hp] at hq
      rcases List.mem_cons.mp hq with rfl | hq
      · exact ⟨p, List.mem_cons_self _ _, rfl⟩
      · obtain ⟨post, hpost, rfl⟩ := ih _ q hq
        exact ⟨post, List.mem_cons_of_mem p hpost, rfl⟩

-- ── Claim C10 ───────────────────────────────────────────────────────

/-- C10: `_safe_filename` always returns a nonempty name containing
none of the forbidden filesystem characters, neither starting nor
ending with `.` or space; and for posts whose `source_date` consists of
digits and dashes (the only shape the pipeline produces — regex-matched
`YYYY-MM-DD` or `strftime`), every path built by
`save_to_content_vault` is `month/filename` where both components are
slash-free and the filename is a single nonempty component strictly
inside the month directory. -/
theorem claim10_safe_paths (title : Str) (p : SocialPost)
    (hdate : ∀ ch ∈ p.source_date, isDigitCh ch = true ∨ ch = '-') :
    (safeFilename title ≠ [] ∧
     (∀ ch ∈ safeFilename title, ch ∉ badFileChars) ∧
     (∀ ch, (safeFilename title).head? = some ch → ch ≠ '.' ∧ ch ≠ ' ') ∧
     (∀ ch, (safeFilename title).getLast? = some ch → ch ≠ '.' ∧ ch ≠ ' ')) ∧
    (vaultPath p = p.source_date.take 7 ++ ['/'] ++ vaultFileName p ∧
     '/' ∉ vaultFileName p ∧ vaultFileName p ≠ [] ∧ '/' ∉ p.source_date.take 7) ∧
    (∀ fs posts, ∀ q ∈ (saveToContentVault fs posts).2, ∃ post ∈ posts, q = vaultPath post) := by
  refine ⟨⟨?_, mem_safeFilename_not_bad title, ?_, ?_⟩, ⟨rfl, ?_, ?_, ?_⟩, ?_⟩
  · unfold safeFilename
    by_cases hs : stripChars ['.', ' '] (title.map fun ch =>
        if ch ∈ badFileChars then '-' else ch) = []
    · rw [if_pos hs]
      decide
    · rw [if_neg hs]
      exact hs
  · intro ch hch
    unfold safeFilename at hch
    by_cases hs : stripChars ['.', ' '] (title.map fun ch =>
        if ch ∈ badFileChars then '-' else ch) = []
    · rw [if_pos hs] at hch
      simp at hch
      subst hch
      decide
    · rw [if_neg hs] at hch
      have := head?_stripChars_not_mem _ _ _ hch
      simp at this
      exact this
  · intro ch hch
    unfold safeFilename at hch
    by_cases hs : stripChars ['.', ' '] (title.map fun ch =>
        if ch ∈ badFileChars then '-' else ch) = []
    · rw [if_pos hs] at hch
      simp at hch
      subst hch
      decide
    · rw [if_neg hs] at hch
      have := getLast?_stripChars_not_mem _ _ _ hch
      simp at this
      exact this
  · intro hsl
    unfold vaultFileName at hsl
    rcases List.mem_append.mp hsl with hx | hx
    · rcases List.mem_append.mp hx with hx | hx
      · rcases List.mem_append.mp hx with hx | hx
        · rcases hdate _ hx with hd | hd
          · simp [isDigitCh] at hd
          · exact absurd hd (by decide)
        · simp at hx
      · exact mem_safeFilename_not_bad p.title '/' hx (by decide)
    · exact absurd hx (by decide)
  · intro hnil
    unfold vaultFileName at hnil
    have := congrArg List.length hnil
    simp [List.length_append] at this
  · intro hsl
    rcases List.mem_of_mem_take hsl with hx
    rcases hdate _ hx with hd | hd
    · simp [isDigitCh] at hd
    · exact absurd hd (by decide)
  · exact fun fs posts q hq => saveToContentVault_written_paths posts fs q hq

-- ── Lemmas: tag-regex scanners ──────────────────────────────────────

theorem isPrefixOf_iff_exists (a b : Str) : a.isPrefixOf b = true ↔ ∃ t, b = a ++ t := by
  induction a generalizing b with
  | nil => simp [List.isPrefixOf]
  | cons c as ih =>
    cases b with
    | nil => simp [List.isPrefixOf]
    | cons d bs =>
      simp only [List.isPrefixOf, Bool.and_eq_true, beq_iff_eq]
      rw [ih bs]
      constructor
      · rintro ⟨rfl, t, rfl⟩
        exact ⟨t, rfl⟩
      · rintro ⟨t, ht⟩
        rw [List.cons_append] at ht
        injection ht with h1 h2
        exact ⟨h1.symm, t, h2⟩

theorem containsSub_iff (pat s : Str) :
    containsSub pat s = true ↔ ∃ a b, s = a ++ pat ++ b := by
  induction s with
  | nil =>
    simp only [containsSub]
    rw [isPrefixOf_iff_exists]
    constructor
    · rintro ⟨t, ht⟩
      refine ⟨[], t, ?_⟩
      simpa using ht
    · rintro ⟨a, b, hab⟩
      rw [List.append_assoc] at hab
      rw [List.nil_eq, List.append_eq_nil] at hab
      exact ⟨b, hab.2.symm⟩
  | cons c rest ih =>
    simp only [containsSub, Bool.or_eq_true]
    rw [isPrefixOf_iff_exists, ih]
    constructor
    · rintro (⟨t, ht⟩ | ⟨a, b, hab⟩)
      · refine ⟨[], t, ?_⟩
        simpa using ht
      · exact ⟨c :: a, b, by simp [hab]⟩
    · rintro ⟨a, b, hab⟩
      cases a with
      | nil =>
        left
        exact ⟨b, by simpa using hab⟩
      | cons x a' =>
        right
        simp only [List.cons_append, List.append_assoc] at hab
        injection hab with h1 h2
        exact ⟨a', b, by simp [h2]⟩

theorem containsSub_takeWhile_iff (pat : Str) (p : Char → Bool) (l : Str)
    (hpat : ∀ x ∈ pat, p x = true) :
    containsSub pat (l.takeWhile p) = true ↔
      ∃ a b, l = a ++ pat ++ b ∧ ∀ x ∈ a, p x = true := by
  rw [containsSub_iff]
  constructor
  · rintro ⟨a, b, hab⟩
    refine ⟨a, b ++ l.dropWhile p, ?_, ?_⟩
    · conv_lhs => rw [← List.takeWhile_append_dropWhile p l]
      rw [hab]
      simp [List.append_assoc]
    · intro x hx
      have hmem : x ∈ l.takeWhile p := by
        rw [hab]
        simp [hx]
      exact List.mem_takeWhile_imp hmem
  · rintro ⟨a, b, rfl, ha⟩
    rw [List.append_assoc, takeWhile_append_of_forall _ ha,
      takeWhile_append_of_forall _ hpat]
    exact ⟨a, b.takeWhile p, by simp [List.append_assoc]⟩

theorem isPrefixOf_dropWhile_iff (pat : Str) (p : Char → Bool) (l : Str)
    (hhead : ∀ ch, pat.head? = some ch → p ch = false) (hne : pat ≠ []) :
    pat.isPrefixOf (l.dropWhile p) = true ↔
      ∃ ws b, l = ws ++ pat ++ b ∧ ∀ x ∈ ws, p x = true := by
  rw [isPrefixOf_iff_exists]
  constructor
  · rintro ⟨t, ht⟩
    refine ⟨l.takeWhile p, t, ?_, fun x hx => List.mem_takeWhile_imp hx⟩
    conv_lhs => rw [← List.takeWhile_append_dropWhile p l]
    rw [ht, List.append_assoc]
  · rintro ⟨ws, b, rfl, hws⟩
    rw [List.append_assoc, dropWhile_append_of_forall _ hws]
    cases hp : pat with
    | nil => exact absurd hp hne
    | cons c0 rest0 =>
      have hc0 : p c0 = false := by
        apply hhead
        rw [hp]
        rfl
      rw [List.cons_append, dropWhile_cons_of_neg _ (by simp [hc0])]
      exact ⟨b, by simp⟩

theorem sameLineHit_iff (s : Str) :
    sameLineHit s = true ↔
      ∃ k mid post, k ∈ colonChars ∧ '\n' ∉ mid ∧
        s = tagLabel ++ k :: (mid ++ shareTag ++ post) := by
  unfold sameLineHit
  constructor
  · intro h
    rw [Bool.and_eq_true] at h
    obtain ⟨hpf, hrest⟩ := h
    obtain ⟨t, rfl⟩ := (isPrefixOf_iff_exists _ _).mp hpf
    rw [List.drop_left' rfl] at hrest
    cases t with
    | nil => simp at hrest
    | cons k tail =>
      rw [Bool.and_eq_true] at hrest
      obtain ⟨hk, hcs⟩ := hrest
      have hk' : k ∈ colonChars := of_decide_eq_true hk
      obtain ⟨mid, post, htail, hmid⟩ :=
        (containsSub_takeWhile_iff shareTag (fun x => decide (x ≠ '\n')) tail
          (by decide)).mp hcs
      refine ⟨k, mid, post, hk', ?_, ?_⟩
      · intro hx
        have := hmid '\n' hx
        simp at this
      · rw [htail]
  · rintro ⟨k, mid, post, hk, hmid, rfl⟩
    rw [Bool.and_eq_true]
    refine ⟨(isPrefixOf_iff_exists _ _).mpr ⟨_, rfl⟩, ?_⟩
    have hdrop : (tagLabel ++ k :: (mid ++ shareTag ++ post)).drop tagLabel.length =
        k :: (mid ++ shareTag ++ post) := List.drop_left' rfl
    rw [hdrop]
    show (decide (k ∈ colonChars) &&
      containsSub shareTag ((mid ++ shareTag ++ post).takeWhile
        (fun x => decide (x ≠ '\n')))) = true
    rw [Bool.and_eq_true]
    refine ⟨decide_eq_true hk, ?_⟩
    refine (containsSub_takeWhile_iff shareTag (fun x => decide (x ≠ '\n'))
      (mid ++ shareTag ++ post) (by decide)).mpr ⟨mid, post, rfl, fun x hx => ?_⟩
    exact decide_eq_true (fun hEq => hmid (hEq ▸ hx))

theorem afterWsHit_iff (s : Str) :
    afterWsHit s = true ↔
      ∃ k ws post, k ∈ colonChars ∧ (∀ x ∈ ws, isWsChar x = true) ∧
        s = tagLabel ++ k :: (ws ++ shareTag ++ post) := by
  unfold afterWsHit
  constructor
  · intro h
    rw [Bool.and_eq_true] at h
    obtain ⟨hpf, hrest⟩ := h
    obtain ⟨t, rfl⟩ := (isPrefixOf_iff_exists _ _).mp hpf
    rw [List.drop_left' rfl] at hrest
    cases t with
    | nil => simp at hrest
    | cons k tail =>
      rw [Bool.and_eq_true] at hrest
      obtain ⟨hk, hps⟩ := hrest
      have hk' : k ∈ colonChars := of_decide_eq_true hk
      obtain ⟨ws, post, htail, hws⟩ :=
        (isPrefixOf_dropWhile_iff shareTag isWsChar tail
          (by intro ch hch; cases hch; decide) (by decide)).mp hps
      refine ⟨k, ws, post, hk', hws, ?_⟩
      rw [htail]
  · rintro ⟨k, ws, post, hk, hws, rfl⟩
    rw [Bool.and_eq_true]
    refine ⟨(isPrefixOf_iff_exists _ _).mpr ⟨_, rfl⟩, ?_⟩
    have hdrop : (tagLabel ++ k :: (ws ++ shareTag ++ post)).drop tagLabel.length =
        k :: (ws ++ shareTag ++ post) := List.drop_left' rfl
    rw [hdrop]
    show (decide (k ∈ colonChars) &&
      shareTag.isPrefixOf ((ws ++ shareTag ++ post).dropWhile isWsChar)) = true
    rw [Bool.and_eq_true]
    refine ⟨decide_eq_true hk, ?_⟩
    exact (isPrefixOf_dropWhile_iff shareTag isWsChar (ws ++ shareTag ++ post)
      (by intro ch hch; cases hch; decide) (by decide)).mpr ⟨ws, post, rfl, hws⟩

theorem tagSearchSameLine_iff (s : Str) : tagSearchSameLine s = true ↔ PipeTagSpec s := by
  induction s with
  | nil =>
    constructor
    · intro h
      simp [tagSearchSameLine] at h
    · rintro ⟨pre, k, mid, post, _, _, hs⟩
      have hlen := congrArg List.length hs
      simp [List.length_append, tagLabel] at hlen
      omega
  | cons c rest ih =>
    simp only [tagSearchSameLine, Bool.or_eq_true]
    rw [ih, sameLineHit_iff]
    constructor
    · rintro (⟨k, mid, post, hk, hmid, hs⟩ | ⟨pre, k, mid, post, hk, hmid, hs⟩)
      · exact ⟨[], k, mid, post, hk, hmid, by simpa using hs⟩
      · exact ⟨c :: pre, k, mid, post, hk, hmid, by simp [hs]⟩
    · rintro ⟨pre, k, mid, post, hk, hmid, hs⟩
      cases pre with
      | nil =>
        exact Or.inl ⟨k, mid, post, hk, hmid, by simpa using hs⟩
      | cons x pre' =>
        right
        simp only [List.cons_append, List.append_assoc] at hs
        injection hs with h1 h2
        exact ⟨pre', k, mid, post, hk, hmid, by simp [h2, List.append_assoc]⟩

theorem tagSearchAfterWs_iff (s : Str) : tagSearchAfterWs s = true ↔ AfterWsTagSpec s := by
  induction s with
  | nil =>
    constructor
    · intro h
      simp [tagSearchAfterWs] at h
    · rintro ⟨pre, k, ws, post, _, _, hs⟩
      have hlen := congrArg List.length hs
      simp [List.length_append, tagLabel] at hlen
      omega
  | cons c rest ih =>
    simp only [tagSearchAfterWs, Bool.or_eq_true]
    rw [ih, afterWsHit_iff]
    constructor
    · rintro (⟨k, ws, post, hk, hws, hs⟩ | ⟨pre, k, ws, post, hk, hws, hs⟩)
      · exact ⟨[], k, ws, post, hk, hws, by simpa using hs⟩
      · exact ⟨c :: pre, k, ws, post, hk, hws, by simp [hs]⟩
    · rintro ⟨pre, k, ws, post, hk, hws, hs⟩
      cases pre with
      | nil =>
        exact Or.inl ⟨k, ws, post, hk, hws, by simpa using hs⟩
      | cons x pre' =>
        right
        simp only [List.cons_append, List.append_assoc] at hs
        injection hs with h1 h2
        exact ⟨pre', k, ws, post, hk, hws, by simp [h2, List.append_assoc]⟩

-- ── Claim C8 ────────────────────────────────────────────────────────

/-- C8, counterexample: a segment whose `**标签**` field value contains
`#Share` as a substring but not at the start of the value is extracted
by the share_pipeline/share_to_social extractor (regex `.*#Share`) yet
rejected by the share_to_linkedin extractor (regex `\s*#Share`), so
tag detection is not substring-based in every pipeline variant. -/
theorem claim8_counterexample :
    segmentEntryPipe ("## T\n**标签**：笔记 #Share\n---\nbody text".data) =
      some ("T".data, "body text".data) ∧
    segmentEntryLinkedin ("## T\n**标签**：笔记 #Share\n---\nbody text".data) = none := by
  constructor
  · decide
  · decide

/-- C8, amended: for a `## `-headed segment with a parsable title and
nonempty computed body, the share_pipeline/share_to_social extractor
produces an entry exactly when some colon-terminated `**标签**` label
is followed by `#Share` anywhere later on the same line
(substring-based), while the share_to_linkedin extractor produces an
entry exactly when `#Share` follows the label's colon separated only
by whitespace (prefix-based). -/
theorem claim8_tag_detection (seg : Str)
    (hshape : ("## ".data).isPrefixOf (strip seg) = true)
    (htitle : 3 < (firstLine (strip seg)).length)
    (hbody : segmentBody (strip seg) ≠ []) :
    ((segmentEntryPipe seg).isSome = true ↔ PipeTagSpec (strip seg)) ∧
    ((segmentEntryLinkedin seg).isSome = true ↔ AfterWsTagSpec (strip seg)) := by
  constructor
  · rw [← tagSearchSameLine_iff]
    by_cases hB : tagSearchSameLine (strip seg) = true
    · simp [segmentEntryPipe, hshape, htitle, hB, hbody]
    · simp [segmentEntryPipe, hB]
  · rw [← tagSearchAfterWs_iff]
    by_cases hB : tagSearchAfterWs (strip seg) = true
    · simp [segmentEntryLinkedin, hshape, htitle, hB, hbody]
    · simp [segmentEntryLinkedin, hB]

/-- C8, witness: both extractors accept a segment whose label value
starts with `#Share`, via the amended characterisation. -/
theorem claim8_witness :
    (segmentEntryPipe ("## T\n**标签**：#Share\n---\nbody".data)).isSome = true ∧
    (segmentEntryLinkedin ("## T\n**标签**：#Share\n---\nbody".data)).isSome = true :=
  ⟨(claim8_tag_detection ("## T\n**标签**：#Share\n---\nbody".data)
      (by decide) (by decide) (by decide)).1.mpr
    ⟨"## T\n".data, '：', [], "\n---\nbody".data, by decide, by decide, by decide⟩,
   (claim8_tag_detection ("## T\n**标签**：#Share\n---\nbody".data)
      (by decide) (by decide) (by decide)).2.mpr
    ⟨"## T\n".data, '：', [], "\n---\nbody".data, by decide, by decide, by decide⟩⟩

/-- C10, witness: the safe-filename and path properties at a concrete
title and post. -/
theorem claim10_witness :
    safeFilename ("a/b:c  ".data) ≠ [] ∧
    (∀ ch ∈ safeFilename ("a/b:c  ".data), ch ∉ badFileChars) ∧
    '/' ∉ vaultFileName ⟨"a/b:c  ".data, [], [], [], [], "2025-01-06".data⟩ :=
  ⟨(claim10_safe_paths ("a/b:c  ".data)
      ⟨"a/b:c  ".data, [], [], [], [], "2025-01-06".data⟩ (by decide)).1.1,
   (claim10_safe_paths ("a/b:c  ".data)
      ⟨"a/b:c  ".data, [], [], [], [], "2025-01-06".data⟩ (by decide)).1.2.1,
   (claim10_safe_paths ("a/b:c  ".data)
      ⟨"a/b:c  ".data, [], [], [], [], "2025-01-06".data⟩ (by decide)).2.1.2.1⟩

end VDN
